/-
Verification of the bedow Behance gallery downloader against its design
specification.

The development shallowly embeds the program's core logic:
  * the server-side rate limiter of `src/pages/api/download.ts`
    (`getRateLimitInfo`, `checkRateLimitOnly`, `recordDownload`) and the
    API request `handler`;
  * the extraction helpers of the Behance extractor shipped inside
    `src/components/RateLimitModal.tsx` (`validateAndCleanUrl`,
    `sanitizeFilename`, `getHighestQualityUrl`, `getExtensionFromUrl`,
    and the dedup/filename loop of `extractBehanceImages`);
  * the client page's download machinery (`downloadWithRetry`,
    `downloadAsZip`, `handleDownload`).

Strings are modelled as `List Char`; JavaScript regular-expression
replacement is modelled by explicit scanners that reproduce the
leftmost-match (non-global) and resume-after-match (global) semantics of
`String.prototype.replace`.  Timestamps are natural numbers (milliseconds);
`new Date(t) > subHours(now, 1)` becomes `now < t + RATE_LIMIT_WINDOW`,
which agrees with the JavaScript integer comparison.
-/
import Mathlib

abbrev Str := List Char

/-! ## Rate limiter (src/pages/api/download.ts, lines 7-80)

The mutable module-level `rateLimitStore` is modelled by threading an
`Option StoreEntry` (the entry for one fixed client key) through each
operation and returning the updated entry next to the result. -/

def HOURLY_LIMIT : Nat := 20

def RATE_LIMIT_WINDOW : Nat := 3600000

structure RateLimitInfo where
  used : Nat
  limit : Nat
  remaining : Nat
  resetTime : Nat
  deriving Repr, DecidableEq

structure StoreEntry where
  downloads : List Nat
  resetTime : Nat
  deriving Repr, DecidableEq

/-- `getRateLimitInfo` from `download.ts`: initializes or resets the window
when absent or expired, otherwise prunes events older than one hour
(`new Date(timestamp) > subHours(now, 1)`, i.e. `now < t + WINDOW`).
`Math.max(0, HOURLY_LIMIT - used)` is natural-number subtraction. -/
def getRateLimitInfo (now : Nat) (store : Option StoreEntry) :
    RateLimitInfo × StoreEntry :=
  match store with
  | none =>
    (⟨0, HOURLY_LIMIT, HOURLY_LIMIT, now + RATE_LIMIT_WINDOW⟩,
     ⟨[], now + RATE_LIMIT_WINDOW⟩)
  | some st =>
    if st.resetTime < now then
      (⟨0, HOURLY_LIMIT, HOURLY_LIMIT, now + RATE_LIMIT_WINDOW⟩,
       ⟨[], now + RATE_LIMIT_WINDOW⟩)
    else
      let ds := st.downloads.filter (fun t => now < t + RATE_LIMIT_WINDOW)
      (⟨ds.length, HOURLY_LIMIT, HOURLY_LIMIT - ds.length, st.resetTime⟩,
       ⟨ds, st.resetTime⟩)

/-- `checkRateLimitOnly` from `download.ts`: `allowed = info.remaining > 0`,
without recording an event. -/
def checkRateLimitOnly (now : Nat) (store : Option StoreEntry) :
    (Bool × RateLimitInfo) × StoreEntry :=
  let (info, st) := getRateLimitInfo now store
  ((decide (0 < info.remaining), info), st)

/-- `recordDownload` from `download.ts`: a missing entry is left untouched
(`if (!store) return getRateLimitInfo(clientIp)`), otherwise the current
timestamp is pushed before refreshing the info. -/
def recordDownload (now : Nat) (store : Option StoreEntry) :
    RateLimitInfo × StoreEntry :=
  match store with
  | none => getRateLimitInfo now none
  | some st =>
    getRateLimitInfo now (some ⟨st.downloads ++ [now], st.resetTime⟩)

/-- Iterated `recordDownload`, all calls at the same instant `t`; returns
the store entry left behind after the `n` calls. -/
def recordN : Nat → Nat → Option StoreEntry → Option StoreEntry
  | 0, _, store => store
  | n + 1, t, store => recordN n t (some (recordDownload t store).2)

/-! ## String utilities

`Str.includes` mirrors `String.prototype.includes`; the matchers and
replacers below mirror the specific regular expressions used by the
repository, with JavaScript `replace` semantics: a non-global pattern
rewrites only the leftmost match, a global pattern rewrites every match,
resuming immediately after each matched span. -/

/-- JavaScript `hay.includes(needle)`. -/
def includesSub (needle : Str) : Str → Bool
  | [] => needle.isEmpty
  | c :: t => needle.isPrefixOf (c :: t) || includesSub needle t

/-- Characters matched by `.` in a JavaScript regex (anything but a line
terminator). -/
def dotChar (c : Char) : Bool :=
  !(c == '\n' || c == '\r' || c == '\u2028' || c == '\u2029')

/-- Index of the first `'/'` in the list, provided every character before
it is matched by `.`; `none` otherwise.  This is the extent search of the
lazy `.*?\/` part of `/\/fs\/.*?\//`. -/
def findSlash : Str → Option Nat
  | [] => none
  | c :: t =>
    if c == '/' then some 0
    else if dotChar c then (findSlash t).map (· + 1) else none

/-- Length matched by `/\/fs\/.*?\//` at the head of `s`, if any. -/
def fsMatch (s : Str) : Option Nat :=
  if (("/fs/").data).isPrefixOf s then
    (findSlash (s.drop 4)).map (fun k => k + 5)
  else none

/-- Length matched by `/\/dH?\//` (for a digit block `d`, e.g. `200`) at
the head of `s`, if any.  The optional `H` is greedy, matching the source
patterns `/\/200H?\//` … `/\/1400H?\//`. -/
def segMatch (d : Str) (s : Str) : Option Nat :=
  if (('/' :: d) ++ ['H', '/']).isPrefixOf s then some (d.length + 3)
  else if (('/' :: d) ++ ['/']).isPrefixOf s then some (d.length + 2)
  else none

/-- Length matched by `/_d\./` (e.g. `/_200\./g`) at the head of `s`. -/
def sufMatch (d : Str) (s : Str) : Option Nat :=
  if (('_' :: d) ++ ['.']).isPrefixOf s then some (d.length + 2) else none

/-- Non-global `String.replace`: rewrite the leftmost match of `m`, leave
the rest untouched. -/
def replaceFirstBy (m : Str → Option Nat) (r : Str) : Str → Str
  | [] => []
  | c :: t =>
    match m (c :: t) with
    | some l => r ++ (c :: t).drop l
    | none => c :: replaceFirstBy m r t

/-- Fuel-indexed body of the global `String.replace` scan; the fuel only
serves structural termination and is irrelevant once it bounds the length
of the remaining text (`replaceAllByAux_congr` below). -/
def replaceAllByAux (m : Str → Option Nat) (r : Str) : Nat → Str → Str
  | _, [] => []
  | 0, s => s
  | fuel + 1, c :: t =>
    match m (c :: t) with
    | some l => r ++ replaceAllByAux m r fuel (t.drop (l - 1))
    | none => c :: replaceAllByAux m r fuel t

/-- Global `String.replace`: rewrite every match of `m`, resuming after
each matched span.  Every matcher in this file matches at least one
character, so `t.drop (l - 1) = (c :: t).drop l` in `replaceAllByAux` and
the scan resumes exactly after the match. -/
def replaceAllBy (m : Str → Option Nat) (r : Str) (s : Str) : Str :=
  replaceAllByAux m r s.length s

/-! ## URL upscaling (RateLimitModal.tsx, `getHighestQualityUrl`) -/

/-- `url.replace(/^\/\//, 'https://')`. -/
def forceHttps (s : Str) : Str :=
  if (("//").data).isPrefixOf s then ("https://").data ++ s.drop 2 else s

/-- The digit blocks of the path-segment patterns `/\/200H?\//` …
`/\/1400H?\//` and of the filename-suffix patterns `/_200\./g` …
`/_1400\./g`. -/
def sizeBlocks : List Str :=
  [("200").data, ("400").data, ("600").data, ("800").data, ("1400").data]

/-- `getHighestQualityUrl` from `RateLimitModal.tsx`: empty input is
returned as-is (`if (!url) return ''`), otherwise the scheme fix and the
eleven substitutions are applied in source order.  The path-segment
substitutions are non-global, the filename-suffix ones are global. -/
def getHighestQualityUrl (url : Str) : Str :=
  if url = [] then []
  else
    let c0 := forceHttps url
    let c1 := replaceFirstBy fsMatch (("/original/").data) c0
    let c2 := replaceFirstBy (segMatch (("200").data)) (("/2000/").data) c1
    let c3 := replaceFirstBy (segMatch (("400").data)) (("/2000/").data) c2
    let c4 := replaceFirstBy (segMatch (("600").data)) (("/2000/").data) c3
    let c5 := replaceFirstBy (segMatch (("800").data)) (("/2000/").data) c4
    let c6 := replaceFirstBy (segMatch (("1400").data)) (("/2000/").data) c5
    let c7 := replaceAllBy (sufMatch (("200").data)) (("_2000.").data) c6
    let c8 := replaceAllBy (sufMatch (("400").data)) (("_2000.").data) c7
    let c9 := replaceAllBy (sufMatch (("600").data)) (("_2000.").data) c8
    let c10 := replaceAllBy (sufMatch (("800").data)) (("_2000.").data) c9
    replaceAllBy (sufMatch (("1400").data)) (("_2000.").data) c10

/-! ## URL validation (RateLimitModal.tsx, `validateAndCleanUrl`) -/

/-- `url.split('?')[0]`. -/
def stripQuery (s : Str) : Str := s.takeWhile (· ≠ '?')

/-- `.replace(/\/+$/, '')`: remove the trailing run of slashes. -/
def stripTrailingSlashes (s : Str) : Str :=
  (s.reverse.dropWhile (· == '/')).reverse

/-- `cleanUrl.match(/behance\.net\/gallery\/\d+$/)`: the literal ends in a
non-digit, so a match exists exactly when the maximal trailing digit run is
non-empty and the text before it ends with `behance.net/gallery/`. -/
def shortGalleryMatch (s : Str) : Bool :=
  let ds := s.reverse.takeWhile Char.isDigit
  !ds.isEmpty &&
    (("behance.net/gallery/").data).isSuffixOf (s.take (s.length - ds.length))

def searchUrlErr : Str :=
  ("Please provide a direct Behance project URL instead of a search URL.").data

def invalidBehanceUrlErr : Str :=
  ("Invalid Behance URL. Please provide a direct project URL.").data

/-- `validateAndCleanUrl` from `RateLimitModal.tsx`. -/
def validateAndCleanUrl (url : Str) : Except Str Str :=
  let cleanUrl := stripTrailingSlashes (stripQuery url)
  if includesSub (("/search/projects").data) cleanUrl then
    Except.error searchUrlErr
  else if shortGalleryMatch cleanUrl then Except.ok cleanUrl
  else if includesSub (("behance.net/gallery/").data) cleanUrl then
    Except.ok cleanUrl
  else Except.error invalidBehanceUrlErr

/-! ## Filename sanitation (RateLimitModal.tsx, `sanitizeFilename`) -/

/-- One character of `.replace(/[^a-z0-9]/gi, '_')`: the `i` flag keeps
upper-case ASCII letters as well. -/
def keepAlnum (c : Char) : Char :=
  if ('a' ≤ c && c ≤ 'z') || ('0' ≤ c && c ≤ '9') || ('A' ≤ c && c ≤ 'Z')
  then c else '_'

/-- State-machine form of `.replace(/_+/g, '_')`: emit the first
underscore of every maximal run (`inRun` records whether the previous
character belonged to a run). -/
def collapseAux : Bool → Str → Str
  | _, [] => []
  | inRun, c :: t =>
    if c == '_' then
      if inRun then collapseAux true t else '_' :: collapseAux true t
    else c :: collapseAux false t

/-- `.replace(/_+/g, '_')`: collapse each run of underscores to one. -/
def collapseUnderscores (s : Str) : Str := collapseAux false s

/-- `.replace(/^_|_$/g, '')`: remove one leading and one trailing
underscore. -/
def trimUnderscore (s : Str) : Str :=
  let a := if s.head? = some '_' then s.tail else s
  if a.getLast? = some '_' then a.dropLast else a

/-- The sanitation pipeline before the `|| 'image'` default:
lowercase, replace non-alphanumerics by `_`, collapse runs, trim one
leading/trailing `_`, then `substring(0, 50)`. -/
def sanitizeCore (name : Str) : Str :=
  (trimUnderscore
    (collapseUnderscores ((name.map Char.toLower).map keepAlnum))).take 50

/-- `sanitizeFilename` from `RateLimitModal.tsx`. -/
def sanitizeFilename (name : Str) : Str :=
  let s := sanitizeCore name
  if s = [] then ("image").data else s

/-! ## Extension inference and the extraction loop (RateLimitModal.tsx) -/

def knownExts : List Str :=
  [(".jpg").data, (".jpeg").data, (".png").data, (".gif").data,
   (".webp").data]

/-- `getExtensionFromUrl` from `RateLimitModal.tsx`. -/
def getExtensionFromUrl (url : Str) : Str :=
  let urlLower := url.map Char.toLower
  match knownExts.find? (fun e => includesSub e urlLower) with
  | some e => e
  | none => (".jpg").data

structure BehanceImage where
  url : Str
  filename : Str
  deriving Repr, DecidableEq

/-- The descriptor-building loop of `extractBehanceImages`
(RateLimitModal.tsx lines 307-317): upscale each raw reference; skip empty
results and already-seen canonical URLs; otherwise append a descriptor
whose filename carries the next 1-based index. -/
def extractLoop (title : Str) :
    List Str → List Str → List BehanceImage → List BehanceImage
  | [], _, acc => acc
  | u :: rest, seen, acc =>
    let h := getHighestQualityUrl u
    if h ≠ [] ∧ h ∉ seen then
      extractLoop title rest (h :: seen)
        (acc ++ [⟨h, sanitizeFilename title ++
          '_' :: (Nat.repr (acc.length + 1)).data ++ getExtensionFromUrl h⟩])
    else extractLoop title rest seen acc

/-- `extractBehanceImages`, modelled on its pure core: the page rendering
produced `raws`, the raw `src` references matching the asset-host pattern,
and the page title `title`; the browser-automation part is an external
collaborator. -/
def extractBehanceImages (title : Str) (raws : List Str) :
    List BehanceImage :=
  extractLoop title raws [] []

/-- First-seen deduplication with an explicit seen accumulator, the
reference form of the `seen : Set` discipline of the extraction loop. -/
def firstSeenDedupAux : List Str → List Str → List Str
  | [], _ => []
  | u :: rest, seen =>
    if u ∈ seen then firstSeenDedupAux rest seen
    else u :: firstSeenDedupAux rest (u :: seen)

/-- Deduplication keeping the first occurrence of each element. -/
def firstSeenDedup (l : List Str) : List Str := firstSeenDedupAux l []

/-! ## Client download machinery (the page component)

`downloadWithRetry`, `downloadAsZip` and `handleDownload` from the home
page component.  Network transfer is an oracle `fetch : image → attempt →
Option FetchResponse`; the observable actions (fetch attempts, inter-retry
sleeps, quota `record` calls) are collected in an event trace. -/

def MAX_RETRIES : Nat := 3

def RETRY_DELAY : Nat := 1000

structure FetchResponse where
  payload : Nat
  contentType : Option Str
  deriving Repr, DecidableEq

structure Blob where
  contentType : Str
  payload : Nat
  deriving Repr, DecidableEq

inductive DlEvent where
  | fetchAttempt (img : BehanceImage) (n : Nat)
  | sleepEv (ms : Nat)
  | recordEv
  deriving Repr, DecidableEq

/-- The retry recursion with the remaining retry budget made explicit:
`remaining = MAX_RETRIES - attempt`, so the source guard
`attempt < MAX_RETRIES` is exactly `remaining ≠ 0`. -/
def downloadWithRetryAux (fetch : BehanceImage → Nat → Option FetchResponse)
    (img : BehanceImage) : Nat → Nat → Option Blob × List DlEvent
  | attempt, remaining =>
    match fetch img attempt with
    | some resp =>
      (some ⟨resp.contentType.getD (("image/jpeg").data), resp.payload⟩,
       [DlEvent.fetchAttempt img attempt, DlEvent.recordEv])
    | none =>
      match remaining with
      | r + 1 =>
        let res := downloadWithRetryAux fetch img (attempt + 1) r
        (res.1,
         DlEvent.fetchAttempt img attempt ::
           DlEvent.sleepEv (RETRY_DELAY * attempt) :: res.2)
      | 0 => (none, [DlEvent.fetchAttempt img attempt])

/-- `downloadWithRetry` from the page component: try the fetch; on success
record the download (one quota unit) and return the blob, whose type
defaults to `image/jpeg`; on error sleep `RETRY_DELAY * attempt` and retry
while `attempt < MAX_RETRIES`, else give up with `null`. -/
def downloadWithRetry (fetch : BehanceImage → Nat → Option FetchResponse)
    (img : BehanceImage) (attempt : Nat) : Option Blob × List DlEvent :=
  downloadWithRetryAux fetch img attempt (MAX_RETRIES - attempt)

/-- `contentType.includes('webp') / includes('png')` → extension, else
`.jpg`. -/
def contentTypeExt (ct : Str) : Str :=
  if includesSub (("webp").data) ct then (".webp").data
  else if includesSub (("png").data) ct then (".png").data
  else (".jpg").data

/-- `image.filename.replace(/\.[^/.]+$/, '')`: drop the final
dot-extension when the trailing run of non-`/.` characters is non-empty
and preceded by a dot. -/
def stripExt (f : Str) : Str :=
  let rev := f.reverse
  let t := rev.takeWhile (fun c => !(c == '/' || c == '.'))
  match rev.drop t.length with
  | '.' :: rest => if t.isEmpty then f else rest.reverse
  | _ => f

structure ZipState where
  entries : List (Str × Blob)
  downloaded : List Str
  failed : List Str
  progress : List (Nat × Nat)
  trace : List DlEvent
  deriving Repr, DecidableEq

/-- The body of `downloadAsZip`'s `for` loop, processing the images in
order.  `progress` records the `(completed, total)` pairs from which the
emitted percentage `completed / total * 100` is computed. -/
def zipLoop (fetch : BehanceImage → Nat → Option FetchResponse)
    (total : Nat) : List BehanceImage → ZipState → ZipState
  | [], st => st
  | img :: rest, st =>
    let res := downloadWithRetry fetch img 1
    let st' :=
      match res.1 with
      | some blob =>
        let fn := stripExt img.filename ++ contentTypeExt blob.contentType
        { st with
          entries := st.entries ++ [(fn, blob)],
          downloaded := st.downloaded ++ [fn],
          trace := st.trace ++ res.2 }
      | none =>
        { st with
          failed := st.failed ++ [img.filename],
          trace := st.trace ++ res.2 }
    zipLoop fetch total rest
      { st' with
        progress := st'.progress ++ [(st'.progress.length + 1, total)] }

/-- `downloadAsZip` from the page component (ZIP finalization is delegated
to the external archiver). -/
def downloadAsZip (fetch : BehanceImage → Nat → Option FetchResponse)
    (images : List BehanceImage) : ZipState :=
  zipLoop fetch images.length images ⟨[], [], [], [], []⟩

inductive HandleResult where
  | noop
  | rateLimitModal
  | ran (st : ZipState)
  deriving Repr, DecidableEq

/-- `handleDownload` from the page component: empty selections are
ignored; when the cached rate-limit info shows fewer remaining units than
selected images, the rate-limit modal is shown and nothing is downloaded;
otherwise the whole selection is downloaded (ZIP mode shown; individual
mode runs the same per-image sequence). -/
def handleDownload (rateLimitInfo : Option RateLimitInfo)
    (selected : List BehanceImage)
    (fetch : BehanceImage → Nat → Option FetchResponse) : HandleResult :=
  if selected.length = 0 then HandleResult.noop
  else
    match rateLimitInfo with
    | some info =>
      if info.remaining < selected.length then HandleResult.rateLimitModal
      else HandleResult.ran (downloadAsZip fetch selected)
    | none => HandleResult.ran (downloadAsZip fetch selected)

/-- Quota units consumed by a run = `record` calls in the trace. -/
def countRecords (evs : List DlEvent) : Nat :=
  evs.countP (fun e => match e with
    | DlEvent.recordEv => true
    | _ => false)

/-- Whether some fetch attempt for `img` appears in the trace. -/
def imageAttempted (evs : List DlEvent) (img : BehanceImage) : Bool :=
  evs.any (fun e => match e with
    | DlEvent.fetchAttempt i _ => i == img
    | _ => false)

/-- The event trace of a `handleDownload` outcome (empty when no run
happened). -/
def resultTrace : HandleResult → List DlEvent
  | HandleResult.ran st => st.trace
  | _ => []

/-! ## The API handler (src/pages/api/download.ts, `handler`)

The extraction backend is an oracle: `some imgs` models
`extractBehanceImages` resolving with `imgs`, `none` models it throwing
(the inner `catch`).  The response carries the fields the handler writes;
the updated store entry is returned next to it. -/

structure ApiResponse where
  status : Nat
  error : Option Str
  message : Option Str
  images : Option (List BehanceImage)
  useClientDownload : Bool
  rateLimit : Option RateLimitInfo
  deriving Repr, DecidableEq

def urlRequiredErr : Str := ("URL is required").data

def invalidGalleryErr : Str := ("Invalid Behance gallery URL").data

def rateLimitExceededErr : Str := ("Rate limit exceeded.").data

def methodNotAllowedErr : Str := ("Method not allowed").data

def handler (method : Str) (url : Str) (action : Str)
    (extraction : Option (List BehanceImage)) (now : Nat)
    (store : Option StoreEntry) : ApiResponse × Option StoreEntry :=
  if method = ("OPTIONS").data then
    (⟨200, none, none, none, false, none⟩, store)
  else if method = ("POST").data then
    if url = [] then
      let p := getRateLimitInfo now store
      (⟨400, some urlRequiredErr, none, none, false, some p.1⟩, some p.2)
    else if !includesSub (("behance.net/gallery").data) url then
      let p := getRateLimitInfo now store
      (⟨400, some invalidGalleryErr, none, none, false, some p.1⟩, some p.2)
    else if action = ("search").data then
      let p := checkRateLimitOnly now store
      if !p.1.1 then
        (⟨429, some rateLimitExceededErr, none, none, false, some p.1.2⟩,
         some p.2)
      else
        match extraction with
        | some imgs =>
          if 0 < imgs.length then
            (⟨200, none, some (("Success").data),
              some (imgs.map (fun i => ⟨forceHttps i.url, i.filename⟩)),
              false, some p.1.2⟩, some p.2)
          else
            -- zero extracted images: no `return` fires inside the search
            -- branch, control falls through both action tests to the 405.
            let q := getRateLimitInfo now (some p.2)
            (⟨405, some methodNotAllowedErr, none, none, false, some q.1⟩,
             some q.2)
        | none =>
          (⟨200, none, some (("Please use client-side download").data),
            none, true, some p.1.2⟩, some p.2)
    else if action = ("download").data then
      let p := checkRateLimitOnly now store
      if !p.1.1 then
        (⟨429, some rateLimitExceededErr, none, none, false, some p.1.2⟩,
         some p.2)
      else
        let q := recordDownload now (some p.2)
        (⟨200, none, some (("Download recorded").data), none, false,
          some q.1⟩, some q.2)
    else
      let p := getRateLimitInfo now store
      (⟨405, some methodNotAllowedErr, none, none, false, some p.1⟩,
       some p.2)
  else
    let p := getRateLimitInfo now store
    (⟨405, some methodNotAllowedErr, none, none, false, some p.1⟩,
     some p.2)

/-- Fetch attempts appearing in a trace. -/
def countAttempts (evs : List DlEvent) : Nat :=
  evs.countP (fun e => match e with
    | DlEvent.fetchAttempt _ _ => true
    | _ => false)

/-! ## Low-resolution markers

The eleven matchers of `getHighestQualityUrl` are the recognized
low-resolution markers of the specification: the `/fs/…/` segment, the
five `/dH?/` path segments and the five `_d.` filename suffixes. -/

def markerMatchers : List (Str → Option Nat) :=
  fsMatch :: (sizeBlocks.map segMatch ++ sizeBlocks.map sufMatch)

/-- The string carries no low-resolution marker: no matcher of
`getHighestQualityUrl` matches at any position. -/
def markerFree (s : Str) : Prop :=
  ∀ m ∈ markerMatchers, ∀ i, m (s.drop i) = none

/-- Interior characters allowed in the lazy `.*?` part of the `/fs/`
pattern: matched by `.` and distinct from the closing slash. -/
def wOK (w : Str) : Prop := ∀ c ∈ w, dotChar c = true ∧ c ≠ '/'

/-- The fixed strings matched by the path-segment and filename-suffix
matchers, used for the decidable side conditions of the transfer
lemmas. -/
def patternStrings : List Str :=
  sizeBlocks.map (fun d => ('/' :: d) ++ ['H', '/']) ++
    sizeBlocks.map (fun d => ('/' :: d) ++ ['/']) ++
    sizeBlocks.map (fun d => ('_' :: d) ++ ['.'])

/-- At most one occurrence of matcher `m` anywhere in `u`. -/
def atMostOne (m : Str → Option Nat) (u : Str) : Prop :=
  ∀ i j, (m (u.drop i)).isSome = true → (m (u.drop j)).isSome = true → i = j

/-- Marker occurrences at distinct positions have disjoint spans. -/
def sepOcc (u : Str) : Prop :=
  ∀ m1 ∈ markerMatchers, ∀ m2 ∈ markerMatchers, ∀ i j,
    (m1 (u.drop i)).isSome = true → (m2 (u.drop j)).isSome = true →
    i = j ∨ i + (m1 (u.drop i)).getD 0 ≤ j ∨ j + (m2 (u.drop j)).getD 0 ≤ i

/-- Matcher `m` never matches in `u`. -/
def noOcc (m : Str → Option Nat) (u : Str) : Prop :=
  ∀ i, m (u.drop i) = none

/-- Pipeline invariant: processed matchers are gone, remaining marker
occurrences are unique per matcher and pairwise span-disjoint. -/
def goodState (done : List (Str → Option Nat)) (u : Str) : Prop :=
  (∀ m ∈ done, m ∈ markerMatchers) ∧ (∀ m ∈ done, noOcc m u) ∧
    (∀ m ∈ markerMatchers, atMostOne m u) ∧ sepOcc u

/-- Executable check: every marker matches at most once in `s`. -/
def amoCheck (s : Str) : Bool :=
  markerMatchers.all (fun m =>
    (List.range s.length).all (fun i =>
      (List.range s.length).all (fun j =>
        !(m (s.drop i)).isSome || !(m (s.drop j)).isSome || (i == j))))

/-- Executable check: marker occurrences at distinct positions have
disjoint spans in `s`. -/
def sepOccCheck (s : Str) : Bool :=
  markerMatchers.all (fun m1 =>
    markerMatchers.all (fun m2 =>
      (List.range s.length).all (fun i =>
        (List.range s.length).all (fun j =>
          !(m1 (s.drop i)).isSome || !(m2 (s.drop j)).isSome ||
            ((i == j) || Nat.ble (i + (m1 (s.drop i)).getD 0) j ||
              Nat.ble (j + (m2 (s.drop j)).getD 0) i)))))

/-! ## Helper lemmas -/

theorem getRateLimitInfo_replicate (t r k : Nat) (hr : ¬ r < t) :
    getRateLimitInfo t (some ⟨List.replicate k t, r⟩) =
      (⟨k, HOURLY_LIMIT, HOURLY_LIMIT - k, r⟩, ⟨List.replicate k t, r⟩) := by
  have hf : (List.replicate k t).filter
      (fun x => decide (t < x + RATE_LIMIT_WINDOW)) = List.replicate k t := by
    refine List.filter_eq_self.mpr ?_
    intro x hx
    rw [List.eq_of_mem_replicate hx]
    simp [RATE_LIMIT_WINDOW]
  simp [getRateLimitInfo, if_neg hr, hf]

theorem recordDownload_replicate (t r k : Nat) (hr : ¬ r < t) :
    recordDownload t (some ⟨List.replicate k t, r⟩) =
      (⟨k + 1, HOURLY_LIMIT, HOURLY_LIMIT - (k + 1), r⟩,
       ⟨List.replicate (k + 1) t, r⟩) := by
  have h : List.replicate k t ++ [t] = List.replicate (k + 1) t :=
    (List.replicate_succ' k t).symm
  simp only [recordDownload, h]
  exact getRateLimitInfo_replicate t r (k + 1) hr

theorem recordN_replicate (t r : Nat) (hr : ¬ r < t) :
    ∀ n k, recordN n t (some ⟨List.replicate k t, r⟩) =
      some ⟨List.replicate (k + n) t, r⟩
  | 0, k => by simp [recordN]
  | n + 1, k => by
    simp only [recordN, recordDownload_replicate t r k hr]
    rw [recordN_replicate t r hr n (k + 1)]
    have h : k + 1 + n = k + (n + 1) := by omega
    rw [h]

/-! ## C2 -/

/-- C2: starting from the freshly initialized window of some client
(created at `t0`, so its entry is `⟨[], t0 + RATE_LIMIT_WINDOW⟩`), after
`HOURLY_LIMIT = 20` consecutive `recordDownload` calls inside the window, a
`getRateLimitInfo` peek reports `used = 20` and `remaining = 0` and
`checkRateLimitOnly` reports `allowed = false`; once the reset time has
elapsed, the next peek reports `used = 0`, `remaining = 20` and a new
(strictly later) reset time. -/
theorem quota_exhausts_after_limit_records_and_resets (t0 t t' : Nat)
    (h2 : t ≤ t0 + RATE_LIMIT_WINDOW) (h3 : t0 + RATE_LIMIT_WINDOW < t') :
    (getRateLimitInfo t0 none).2 = ⟨[], t0 + RATE_LIMIT_WINDOW⟩ ∧
    (getRateLimitInfo t
      (recordN HOURLY_LIMIT t (some ⟨[], t0 + RATE_LIMIT_WINDOW⟩))).1.used =
        HOURLY_LIMIT ∧
    (getRateLimitInfo t
      (recordN HOURLY_LIMIT t
        (some ⟨[], t0 + RATE_LIMIT_WINDOW⟩))).1.remaining = 0 ∧
    (checkRateLimitOnly t
      (recordN HOURLY_LIMIT t (some ⟨[], t0 + RATE_LIMIT_WINDOW⟩))).1.1 =
        false ∧
    (getRateLimitInfo t'
      (recordN HOURLY_LIMIT t (some ⟨[], t0 + RATE_LIMIT_WINDOW⟩))).1.used =
        0 ∧
    (getRateLimitInfo t'
      (recordN HOURLY_LIMIT t
        (some ⟨[], t0 + RATE_LIMIT_WINDOW⟩))).1.remaining = HOURLY_LIMIT ∧
    (getRateLimitInfo t'
      (recordN HOURLY_LIMIT t
        (some ⟨[], t0 + RATE_LIMIT_WINDOW⟩))).1.resetTime =
        t' + RATE_LIMIT_WINDOW ∧
    t0 + RATE_LIMIT_WINDOW <
      (getRateLimitInfo t'
        (recordN HOURLY_LIMIT t
          (some ⟨[], t0 + RATE_LIMIT_WINDOW⟩))).1.resetTime := by
  have hr : ¬ t0 + RATE_LIMIT_WINDOW < t := by omega
  have hst : recordN HOURLY_LIMIT t (some ⟨[], t0 + RATE_LIMIT_WINDOW⟩) =
      some ⟨List.replicate HOURLY_LIMIT t, t0 + RATE_LIMIT_WINDOW⟩ := by
    have := recordN_replicate t (t0 + RATE_LIMIT_WINDOW) hr HOURLY_LIMIT 0
    simpa using this
  have hpeek := getRateLimitInfo_replicate t (t0 + RATE_LIMIT_WINDOW)
    HOURLY_LIMIT hr
  refine ⟨rfl, ?_, ?_, ?_, ?_, ?_, ?_, ?_⟩
  · rw [hst, hpeek]
  · rw [hst, hpeek]
    simp
  · rw [hst]
    simp only [checkRateLimitOnly, hpeek]
    simp
  · rw [hst]
    simp only [getRateLimitInfo]
    rw [if_pos h3]
  · rw [hst]
    simp only [getRateLimitInfo]
    rw [if_pos h3]
  · rw [hst]
    simp only [getRateLimitInfo]
    rw [if_pos h3]
  · rw [hst]
    simp only [getRateLimitInfo]
    rw [if_pos h3]
    simp only []
    omega

/-- Witness for C2 at `t0 = 0`, records at `t = 10`, later peek at
`t' = 3600001`. -/
theorem quota_exhausts_after_limit_records_and_resets_witness :
    (getRateLimitInfo 0 none).2 = ⟨[], 0 + RATE_LIMIT_WINDOW⟩ ∧
    (getRateLimitInfo 10
      (recordN HOURLY_LIMIT 10 (some ⟨[], 0 + RATE_LIMIT_WINDOW⟩))).1.used =
        HOURLY_LIMIT ∧
    (getRateLimitInfo 10
      (recordN HOURLY_LIMIT 10
        (some ⟨[], 0 + RATE_LIMIT_WINDOW⟩))).1.remaining = 0 ∧
    (checkRateLimitOnly 10
      (recordN HOURLY_LIMIT 10 (some ⟨[], 0 + RATE_LIMIT_WINDOW⟩))).1.1 =
        false ∧
    (getRateLimitInfo 3600001
      (recordN HOURLY_LIMIT 10 (some ⟨[], 0 + RATE_LIMIT_WINDOW⟩))).1.used =
        0 ∧
    (getRateLimitInfo 3600001
      (recordN HOURLY_LIMIT 10
        (some ⟨[], 0 + RATE_LIMIT_WINDOW⟩))).1.remaining = HOURLY_LIMIT ∧
    (getRateLimitInfo 3600001
      (recordN HOURLY_LIMIT 10
        (some ⟨[], 0 + RATE_LIMIT_WINDOW⟩))).1.resetTime =
        3600001 + RATE_LIMIT_WINDOW ∧
    0 + RATE_LIMIT_WINDOW <
      (getRateLimitInfo 3600001
        (recordN HOURLY_LIMIT 10
          (some ⟨[], 0 + RATE_LIMIT_WINDOW⟩))).1.resetTime :=
  quota_exhausts_after_limit_records_and_resets 0 10 3600001
    (by norm_num [RATE_LIMIT_WINDOW]) (by norm_num [RATE_LIMIT_WINDOW])

/-! ## C9 -/

/-- C9: `checkRateLimitOnly` (tryConsume) decides `allowed` exactly as
`remaining > 0` of the `getRateLimitInfo` (peek) taken at the same
instant, returns that same info and leaves the same store entry behind;
neither operation appends an event: an active window keeps exactly its
pruned event list and reset time, while an absent or expired window is
lazily (re)initialized empty. -/
theorem tryConsume_agrees_with_peek_and_never_records (now : Nat)
    (store : Option StoreEntry) :
    (checkRateLimitOnly now store).1.1 =
      decide (0 < (getRateLimitInfo now store).1.remaining) ∧
    (checkRateLimitOnly now store).1.2 = (getRateLimitInfo now store).1 ∧
    (checkRateLimitOnly now store).2 = (getRateLimitInfo now store).2 ∧
    (∀ e, store = some e → ¬ e.resetTime < now →
      (getRateLimitInfo now store).2.downloads =
        e.downloads.filter (fun x => now < x + RATE_LIMIT_WINDOW) ∧
      (getRateLimitInfo now store).2.resetTime = e.resetTime) ∧
    (∀ e, store = some e → e.resetTime < now →
      (getRateLimitInfo now store).2 = ⟨[], now + RATE_LIMIT_WINDOW⟩) ∧
    (store = none →
      (getRateLimitInfo now store).2 = ⟨[], now + RATE_LIMIT_WINDOW⟩) := by
  refine ⟨rfl, rfl, rfl, ?_, ?_, ?_⟩
  · rintro e rfl hne
    simp [getRateLimitInfo, if_neg hne]
  · rintro e rfl hlt
    simp [getRateLimitInfo, if_pos hlt]
  · rintro rfl
    simp [getRateLimitInfo]

/-- Witness for C9 on an active window: the entry `⟨[1, 2], 3600000⟩`
observed at `now = 5` is only pruned, never extended. -/
theorem tryConsume_agrees_with_peek_and_never_records_witness :
    (getRateLimitInfo 5 (some ⟨[1, 2], 3600000⟩)).2.downloads =
      [1, 2].filter (fun x => 5 < x + RATE_LIMIT_WINDOW) ∧
    (getRateLimitInfo 5 (some ⟨[1, 2], 3600000⟩)).2.resetTime = 3600000 :=
  (tryConsume_agrees_with_peek_and_never_records 5
    (some ⟨[1, 2], 3600000⟩)).2.2.2.1 ⟨[1, 2], 3600000⟩ rfl
    (by norm_num)

/-! ## C10 -/

/-- C10: a POST request carrying a URL that passes the gallery check but
an action that is neither `search` nor `download` falls through both
action branches and is answered 405 `Method not allowed`, together with
the current quota snapshot. -/
theorem post_with_unknown_action_gets_405 (url action : Str)
    (extraction : Option (List BehanceImage)) (now : Nat)
    (store : Option StoreEntry)
    (hu : includesSub (("behance.net/gallery").data) url = true)
    (hs : action ≠ ("search").data) (hd : action ≠ ("download").data) :
    (handler (("POST").data) url action extraction now store).1 =
      ⟨405, some methodNotAllowedErr, none, none, false,
        some (getRateLimitInfo now store).1⟩ ∧
    (handler (("POST").data) url action extraction now store).2 =
      some (getRateLimitInfo now store).2 := by
  have hne : url ≠ [] := by
    rintro rfl
    simp [includesSub, List.isEmpty] at hu
  constructor <;>
    simp [handler, hne, hu, hs, hd, if_neg (by decide : ¬ (("POST").data = ("OPTIONS").data))]

/-- Witness for C10: action `foo` on a valid gallery URL. -/
theorem post_with_unknown_action_gets_405_witness :
    (handler (("POST").data) (("https://www.behance.net/gallery/1/x").data)
      (("foo").data) none 0 none).1 =
      ⟨405, some methodNotAllowedErr, none, none, false,
        some (getRateLimitInfo 0 none).1⟩ ∧
    (handler (("POST").data) (("https://www.behance.net/gallery/1/x").data)
      (("foo").data) none 0 none).2 =
      some (getRateLimitInfo 0 none).2 :=
  post_with_unknown_action_gets_405
    (("https://www.behance.net/gallery/1/x").data) (("foo").data) none 0
    none (by decide) (by decide) (by decide)

/-! ## C5 -/

/-- C5: the per-descriptor fetch makes at most `MAX_RETRIES = 3` attempts;
it reports failure exactly when all three attempts fail; and in the
scenario where attempts 1 and 2 fail and attempt 3 succeeds, the whole run
is the explicit trace `attempt 1, sleep 1·RETRY_DELAY, attempt 2, sleep
2·RETRY_DELAY, attempt 3, record` — three attempts, `attempt × base_delay`
waits between consecutive attempts, a success outcome carrying the fetched
payload, and exactly one quota `record` call placed before the return. -/
theorem downloadWithRetry_bounded_attempts_and_retry_scenario
    (fetch : BehanceImage → Nat → Option FetchResponse) (img : BehanceImage) :
    countAttempts (downloadWithRetry fetch img 1).2 ≤ MAX_RETRIES ∧
    ((downloadWithRetry fetch img 1).1 = none ↔
      fetch img 1 = none ∧ fetch img 2 = none ∧ fetch img 3 = none) ∧
    (∀ resp, fetch img 1 = none → fetch img 2 = none →
      fetch img 3 = some resp →
      downloadWithRetry fetch img 1 =
        (some ⟨resp.contentType.getD (("image/jpeg").data), resp.payload⟩,
         [DlEvent.fetchAttempt img 1, DlEvent.sleepEv (RETRY_DELAY * 1),
          DlEvent.fetchAttempt img 2, DlEvent.sleepEv (RETRY_DELAY * 2),
          DlEvent.fetchAttempt img 3, DlEvent.recordEv]) ∧
      countAttempts (downloadWithRetry fetch img 1).2 = 3 ∧
      countRecords (downloadWithRetry fetch img 1).2 = 1) := by
  refine ⟨?_, ?_, ?_⟩
  · cases h1 : fetch img 1 <;>
      simp only [downloadWithRetry, downloadWithRetryAux, h1, MAX_RETRIES,
        countAttempts] <;>
      [skip; simp]
    cases h2 : fetch img 2 <;>
      simp only [downloadWithRetryAux, h2] <;> [skip; simp]
    cases h3 : fetch img 3 <;>
      simp only [downloadWithRetryAux, h3] <;> simp
  · cases h1 : fetch img 1 <;>
      simp only [downloadWithRetry, downloadWithRetryAux, h1, MAX_RETRIES]
    · cases h2 : fetch img 2 <;> simp only [downloadWithRetryAux, h2]
      · cases h3 : fetch img 3 <;> simp only [downloadWithRetryAux, h3]
        · simp [h1, h2, h3]
        · simp [h1, h2, h3]
      · simp [h1, h2]
    · simp [h1]
  · intro resp h1 h2 h3
    refine ⟨?_, ?_, ?_⟩ <;>
      simp [downloadWithRetry, downloadWithRetryAux, h1, h2, h3,
        MAX_RETRIES, countAttempts, countRecords]

/-- Witness for C5 with a fetch oracle that fails twice, then delivers
payload `7` with no declared content type on attempt 3. -/
theorem downloadWithRetry_bounded_attempts_and_retry_scenario_witness :
    downloadWithRetry (fun _ n => if n = 3 then some ⟨7, none⟩ else none)
        ⟨[], []⟩ 1 =
      (some ⟨(("image/jpeg").data), 7⟩,
       [DlEvent.fetchAttempt ⟨[], []⟩ 1, DlEvent.sleepEv (RETRY_DELAY * 1),
        DlEvent.fetchAttempt ⟨[], []⟩ 2, DlEvent.sleepEv (RETRY_DELAY * 2),
        DlEvent.fetchAttempt ⟨[], []⟩ 3, DlEvent.recordEv]) ∧
    countRecords (downloadWithRetry
      (fun _ n => if n = 3 then some ⟨7, none⟩ else none) ⟨[], []⟩ 1).2 =
        1 :=
  have h := (downloadWithRetry_bounded_attempts_and_retry_scenario
    (fun _ n => if n = 3 then some ⟨7, none⟩ else none) ⟨[], []⟩).2.2
    ⟨7, none⟩ (by decide) (by decide) (by decide)
  ⟨h.1, h.2.2⟩

/-! ## C1 -/

/-- C1 counterexample: with 5 selected descriptors and cached
`remaining = 3`, `handleDownload` does not consume the 3 available units
(the claim demands exactly 3 consumed and 2 not-attempted); it returns the
rate-limit modal immediately with an empty event trace — zero fetches,
zero quota records. -/
theorem handleDownload_underquota_counterexample :
    handleDownload (some ⟨17, 20, 3, 0⟩)
        [⟨[], ['1']⟩, ⟨[], ['2']⟩, ⟨[], ['3']⟩, ⟨[], ['4']⟩, ⟨[], ['5']⟩]
        (fun _ _ => some ⟨1, none⟩) = HandleResult.rateLimitModal ∧
    countRecords (resultTrace (handleDownload (some ⟨17, 20, 3, 0⟩)
        [⟨[], ['1']⟩, ⟨[], ['2']⟩, ⟨[], ['3']⟩, ⟨[], ['4']⟩, ⟨[], ['5']⟩]
        (fun _ _ => some ⟨1, none⟩))) = 0 ∧
    ¬ countRecords (resultTrace (handleDownload (some ⟨17, 20, 3, 0⟩)
        [⟨[], ['1']⟩, ⟨[], ['2']⟩, ⟨[], ['3']⟩, ⟨[], ['4']⟩, ⟨[], ['5']⟩]
        (fun _ _ => some ⟨1, none⟩))) = 3 := by
  refine ⟨rfl, rfl, ?_⟩
  decide

/-- C1 (amended): when the cached rate-limit info shows fewer remaining
units than descriptors selected, the run halts before attempting anything:
`handleDownload` surfaces the rate-limit modal, the trace is empty, so no
fetch is attempted and no quota unit is consumed. -/
theorem handleDownload_underquota_halts_before_any_fetch
    (info : RateLimitInfo) (selected : List BehanceImage)
    (fetch : BehanceImage → Nat → Option FetchResponse)
    (hne : selected ≠ []) (hlt : info.remaining < selected.length) :
    handleDownload (some info) selected fetch = HandleResult.rateLimitModal ∧
    resultTrace (handleDownload (some info) selected fetch) = [] ∧
    countRecords (resultTrace (handleDownload (some info) selected fetch))
      = 0 ∧
    ∀ img, imageAttempted
      (resultTrace (handleDownload (some info) selected fetch)) img =
        false := by
  have hlen : ¬ selected.length = 0 := by
    simpa [List.length_eq_zero] using hne
  have hmain : handleDownload (some info) selected fetch =
      HandleResult.rateLimitModal := by
    simp [handleDownload, hlen, hlt]
  refine ⟨hmain, ?_, ?_, ?_⟩ <;>
    simp [hmain, resultTrace, countRecords, imageAttempted]

/-- Witness for the amended C1: remaining 3, five selected descriptors. -/
theorem handleDownload_underquota_halts_before_any_fetch_witness :
    handleDownload (some ⟨17, 20, 3, 0⟩)
        [⟨[], ['1']⟩, ⟨[], ['2']⟩, ⟨[], ['3']⟩, ⟨[], ['4']⟩, ⟨[], ['5']⟩]
        (fun _ _ => none) = HandleResult.rateLimitModal ∧
    resultTrace (handleDownload (some ⟨17, 20, 3, 0⟩)
        [⟨[], ['1']⟩, ⟨[], ['2']⟩, ⟨[], ['3']⟩, ⟨[], ['4']⟩, ⟨[], ['5']⟩]
        (fun _ _ => none)) = [] ∧
    countRecords (resultTrace (handleDownload (some ⟨17, 20, 3, 0⟩)
        [⟨[], ['1']⟩, ⟨[], ['2']⟩, ⟨[], ['3']⟩, ⟨[], ['4']⟩, ⟨[], ['5']⟩]
        (fun _ _ => none))) = 0 ∧
    ∀ img, imageAttempted (resultTrace (handleDownload (some ⟨17, 20, 3, 0⟩)
        [⟨[], ['1']⟩, ⟨[], ['2']⟩, ⟨[], ['3']⟩, ⟨[], ['4']⟩, ⟨[], ['5']⟩]
        (fun _ _ => none))) img = false :=
  handleDownload_underquota_halts_before_any_fetch ⟨17, 20, 3, 0⟩
    [⟨[], ['1']⟩, ⟨[], ['2']⟩, ⟨[], ['3']⟩, ⟨[], ['4']⟩, ⟨[], ['5']⟩]
    (fun _ _ => none) (by decide) (by decide)

/-! ## C6 -/

theorem takeWhile_append_all {p : Char → Bool} (l1 l2 : Str)
    (h : ∀ c ∈ l1, p c = true) :
    (l1 ++ l2).takeWhile p = l1 ++ l2.takeWhile p := by
  induction l1 with
  | nil => simp
  | cons c t ih =>
    simp only [List.cons_append, List.takeWhile_cons,
      h c (List.mem_cons_self c t), if_true]
    rw [ih (fun x hx => h x (List.mem_cons_of_mem c hx))]

theorem dropWhile_append_all {p : Char → Bool} (l1 l2 : Str)
    (h : ∀ c ∈ l1, p c = true) :
    (l1 ++ l2).dropWhile p = l2.dropWhile p := by
  induction l1 with
  | nil => simp
  | cons c t ih =>
    simp only [List.cons_append, List.dropWhile_cons,
      h c (List.mem_cons_self c t), if_pos]
    exact ih (fun x hx => h x (List.mem_cons_of_mem c hx))

theorem dropWhile_eq_self_of_head {p : Char → Bool} (l : Str)
    (h : ∀ c, l.head? = some c → p c = false) : l.dropWhile p = l := by
  cases l with
  | nil => rfl
  | cons c t => exact List.dropWhile_cons_of_neg (by simp [h c rfl])

theorem stripQuery_decomp (base s q : Str) (hb : ∀ c ∈ base, c ≠ '?')
    (hs : ∀ c ∈ s, c = '/') (hq : q = [] ∨ ∃ t, q = '?' :: t) :
    stripQuery (base ++ s ++ q) = base ++ s := by
  have hall : ∀ c ∈ base ++ s, (decide (c ≠ '?')) = true := by
    intro c hc
    rcases List.mem_append.mp hc with h1 | h2
    · simpa using hb c h1
    · rw [hs c h2]; decide
  unfold stripQuery
  rw [takeWhile_append_all (base ++ s) q hall]
  rcases hq with rfl | ⟨t, rfl⟩
  · simp
  · simp [List.takeWhile_cons]

theorem stripTrailing_decomp (base s : Str)
    (hb : base.getLast? ≠ some '/') (hs : ∀ c ∈ s, c = '/') :
    stripTrailingSlashes (base ++ s) = base := by
  unfold stripTrailingSlashes
  rw [List.reverse_append]
  rw [dropWhile_append_all s.reverse base.reverse
      (by intro c hc; rw [hs c (List.mem_reverse.mp hc)]; decide)]
  rw [dropWhile_eq_self_of_head base.reverse ?_, List.reverse_reverse]
  intro c hc
  rw [List.head?_reverse] at hc
  have : ¬ c = '/' := by
    intro h
    exact hb (h ▸ hc)
  simpa using this

/-- C6: two gallery URLs that differ only by a query string and/or
trailing path separators (a common stem `base`, slash runs `s1`/`s2`, and
query parts `q1`/`q2` that are empty or start with `?`) normalize, for any
valid gallery stem, to the identical canonical URL `base`. -/
theorem normalize_ignores_query_and_trailing_slashes
    (base s1 s2 q1 q2 : Str)
    (hbq : ∀ c ∈ base, c ≠ '?')
    (hbl : base.getLast? ≠ some '/')
    (hs1 : ∀ c ∈ s1, c = '/') (hs2 : ∀ c ∈ s2, c = '/')
    (hq1 : q1 = [] ∨ ∃ t, q1 = '?' :: t)
    (hq2 : q2 = [] ∨ ∃ t, q2 = '?' :: t)
    (hgal : includesSub (("behance.net/gallery/").data) base = true)
    (hsearch : includesSub (("/search/projects").data) base = false) :
    validateAndCleanUrl (base ++ s1 ++ q1) = Except.ok base ∧
    validateAndCleanUrl (base ++ s2 ++ q2) = Except.ok base := by
  have key : ∀ s q, (∀ c ∈ s, c = '/') → (q = [] ∨ ∃ t, q = '?' :: t) →
      validateAndCleanUrl (base ++ s ++ q) = Except.ok base := by
    intro s q hs hq
    have hclean : stripTrailingSlashes (stripQuery (base ++ s ++ q)) =
        base := by
      rw [stripQuery_decomp base s q hbq hs hq,
        stripTrailing_decomp base s hbl hs]
    unfold validateAndCleanUrl
    rw [hclean]
    simp only [hsearch, Bool.false_eq_true, if_false]
    cases h : shortGalleryMatch base <;> simp [h, hgal]
  exact ⟨key s1 q1 hs1 hq1, key s2 q2 hs2 hq2⟩

/-- Witness for C6: `…/gallery/123456/Name/?a=1` and
`…/gallery/123456/Name` normalize to the same canonical URL. -/
theorem normalize_ignores_query_and_trailing_slashes_witness :
    validateAndCleanUrl ((("https://www.behance.net/gallery/123456/Name").data)
        ++ ['/'] ++ ('?' :: ("a=1").data)) =
      Except.ok (("https://www.behance.net/gallery/123456/Name").data) ∧
    validateAndCleanUrl ((("https://www.behance.net/gallery/123456/Name").data)
        ++ [] ++ []) =
      Except.ok (("https://www.behance.net/gallery/123456/Name").data) :=
  normalize_ignores_query_and_trailing_slashes
    (("https://www.behance.net/gallery/123456/Name").data) ['/'] [] 
    ('?' :: ("a=1").data) [] (by decide) (by decide) (by decide)
    (by decide) (Or.inr ⟨("a=1").data, rfl⟩) (Or.inl rfl) (by decide)
    (by decide)

/-! ## C7 -/

theorem char_le_iff_toNat (a b : Char) : a ≤ b ↔ a.toNat ≤ b.toNat := by
  rw [Char.le_def, UInt32.le_def, BitVec.le_def]
  rfl

theorem toLower_not_upper (c : Char) :
    ¬ ('A' ≤ Char.toLower c ∧ Char.toLower c ≤ 'Z') := by
  unfold Char.toLower
  simp only []
  by_cases h : c.toNat ≥ 65 ∧ c.toNat ≤ 90
  · rw [if_pos h]
    intro ⟨h1, h2⟩
    rw [char_le_iff_toNat] at h1 h2
    have hv : (c.toNat + 32).isValidChar := by left; omega
    have he : (Char.ofNat (c.toNat + 32)).toNat = c.toNat + 32 := by
      rw [Char.ofNat, dif_pos hv]; rfl
    rw [he] at h1 h2
    have hz : ('Z').toNat = 90 := rfl
    omega
  · rw [if_neg h]
    intro ⟨h1, h2⟩
    rw [char_le_iff_toNat] at h1 h2
    have ha : ('A').toNat = 65 := rfl
    have hz : ('Z').toNat = 90 := rfl
    omega

theorem keepAlnum_toLower_mem (c : Char) :
    ('a' ≤ keepAlnum (Char.toLower c) ∧ keepAlnum (Char.toLower c) ≤ 'z') ∨
    ('0' ≤ keepAlnum (Char.toLower c) ∧ keepAlnum (Char.toLower c) ≤ '9') ∨
    keepAlnum (Char.toLower c) = '_' := by
  unfold keepAlnum
  by_cases h : (('a' ≤ Char.toLower c && Char.toLower c ≤ 'z') ||
      ('0' ≤ Char.toLower c && Char.toLower c ≤ '9') ||
      ('A' ≤ Char.toLower c && Char.toLower c ≤ 'Z')) = true
  · rw [if_pos h]
    simp only [Bool.or_eq_true, Bool.and_eq_true, decide_eq_true_eq] at h
    rcases h with (h | h) | h
    · exact Or.inl h
    · exact Or.inr (Or.inl h)
    · exact absurd h (toLower_not_upper c)
  · rw [if_neg h]
    exact Or.inr (Or.inr rfl)

/-- The no-two-adjacent-underscores relation. -/
def noDoubleUS (a b : Char) : Prop := ¬(a = '_' ∧ b = '_')


theorem collapseAux_true_head :
    ∀ l : Str, (collapseAux true l).head? ≠ some '_'
  | [] => by simp [collapseAux]
  | c :: t => by
    by_cases hc : (c == '_') = true
    · rw [show collapseAux true (c :: t) = collapseAux true t by
        simp [collapseAux, hc]]
      exact collapseAux_true_head t
    · rw [show collapseAux true (c :: t) = c :: collapseAux false t by
        simp [collapseAux, hc]]
      simp only [List.head?_cons, ne_eq, Option.some.injEq]
      intro h
      exact hc (by simp [h])

theorem collapseAux_chain :
    ∀ (l : Str) (b : Bool), List.Chain' noDoubleUS (collapseAux b l)
  | [], b => by simp [collapseAux]
  | c :: t, b => by
    by_cases hc : (c == '_') = true
    · cases b with
      | true =>
        rw [show collapseAux true (c :: t) = collapseAux true t by
          simp [collapseAux, hc]]
        exact collapseAux_chain t true
      | false =>
        rw [show collapseAux false (c :: t) = '_' :: collapseAux true t by
          simp [collapseAux, hc]]
        rw [List.chain'_cons']
        refine ⟨?_, collapseAux_chain t true⟩
        intro y hy
        intro ⟨_, hy'⟩
        exact collapseAux_true_head t (by rw [hy'] at hy; exact hy)
    · rw [show collapseAux b (c :: t) = c :: collapseAux false t by
        cases b <;> simp [collapseAux, hc]]
      rw [List.chain'_cons']
      refine ⟨?_, collapseAux_chain t false⟩
      intro y hy
      intro ⟨hc', _⟩
      exact hc (by simp [hc'])

theorem collapseAux_mem :
    ∀ (l : Str) (b : Bool) (c : Char), c ∈ collapseAux b l →
      c ∈ l ∨ c = '_'
  | [], b, c => by simp [collapseAux]
  | x :: t, b, c => by
    intro hmem
    by_cases hx : (x == '_') = true
    · cases b with
      | true =>
        rw [show collapseAux true (x :: t) = collapseAux true t by
          simp [collapseAux, hx]] at hmem
        rcases collapseAux_mem t true c hmem with h | h
        · exact Or.inl (List.mem_cons_of_mem x h)
        · exact Or.inr h
      | false =>
        rw [show collapseAux false (x :: t) = '_' :: collapseAux true t by
          simp [collapseAux, hx]] at hmem
        rcases List.mem_cons.mp hmem with h | h
        · exact Or.inr h
        · rcases collapseAux_mem t true c h with h' | h'
          · exact Or.inl (List.mem_cons_of_mem x h')
          · exact Or.inr h'
    · rw [show collapseAux b (x :: t) = x :: collapseAux false t by
        cases b <;> simp [collapseAux, hx]] at hmem
      rcases List.mem_cons.mp hmem with h | h
      · exact Or.inl (h ▸ List.mem_cons_self x t)
      · rcases collapseAux_mem t false c h with h' | h'
        · exact Or.inl (List.mem_cons_of_mem x h')
        · exact Or.inr h'

theorem chain_dropLast_getLast :
    ∀ l : Str, List.Chain' noDoubleUS l → l.getLast? = some '_' →
      l.dropLast.getLast? ≠ some '_'
  | [] => by simp
  | [x] => by simp
  | x :: y :: t => by
    intro hch hla
    rw [List.getLast?_cons_cons] at hla
    rw [List.dropLast_cons₂]
    rcases List.chain'_cons'.mp hch with ⟨hxy, hch'⟩
    cases t with
    | nil =>
      simp only [List.dropLast_single, List.getLast?_singleton, ne_eq,
        Option.some.injEq]
      intro hx
      have hy : y = '_' := by simpa using hla
      exact hxy y (by simp) ⟨hx, hy⟩
    | cons z t' =>
      have hne : (y :: z :: t').dropLast ≠ [] := by
        simp [List.dropLast_cons₂]
      have hstep : (x :: (y :: z :: t').dropLast).getLast? =
          ((y :: z :: t').dropLast).getLast? := by
        cases hdl : (y :: z :: t').dropLast with
        | nil => exact absurd hdl hne
        | cons w m => exact List.getLast?_cons_cons
      rw [hstep]
      exact chain_dropLast_getLast (y :: z :: t') hch' hla

theorem head_dropLast_ne :
    ∀ l : Str, l.head? ≠ some '_' → l.dropLast.head? ≠ some '_'
  | [] => by simp
  | [x] => by simp
  | x :: y :: t => by
    intro h
    rw [List.dropLast_cons₂]
    simpa using h

theorem trimUnderscore_chain (s : Str) (h : List.Chain' noDoubleUS s) :
    List.Chain' noDoubleUS (trimUnderscore s) := by
  have key : ∀ a : Str, List.Chain' noDoubleUS a →
      List.Chain' noDoubleUS
        (if a.getLast? = some '_' then a.dropLast else a) := by
    intro a hch
    split
    · exact hch.prefix (List.dropLast_prefix _)
    · exact hch
  simp only [trimUnderscore]
  by_cases hh : s.head? = some '_'
  · rw [if_pos hh]
    exact key _ h.tail
  · rw [if_neg hh]
    exact key _ h

theorem trimUnderscore_head (s : Str) (h : List.Chain' noDoubleUS s) :
    (trimUnderscore s).head? ≠ some '_' := by
  have key : ∀ a : Str, a.head? ≠ some '_' →
      (if a.getLast? = some '_' then a.dropLast else a).head? ≠
        some '_' := by
    intro a hne
    split
    · exact head_dropLast_ne a hne
    · exact hne
  simp only [trimUnderscore]
  by_cases hh : s.head? = some '_'
  · rw [if_pos hh]
    refine key _ ?_
    cases s with
    | nil => simp
    | cons c t =>
      have hc : c = '_' := by simpa using hh
      simp only [List.tail_cons]
      rcases List.chain'_cons'.mp (hc ▸ h) with ⟨hxy, _⟩
      cases t with
      | nil => simp
      | cons y t' =>
        simp only [List.head?_cons, ne_eq, Option.some.injEq]
        intro hy
        exact hxy y (by simp) ⟨rfl, hy⟩
  · rw [if_neg hh]
    exact key _ hh

theorem trimUnderscore_getLast (s : Str) (h : List.Chain' noDoubleUS s) :
    (trimUnderscore s).getLast? ≠ some '_' := by
  have key : ∀ a : Str, List.Chain' noDoubleUS a →
      (if a.getLast? = some '_' then a.dropLast else a).getLast? ≠
        some '_' := by
    intro a hch
    split
    · rename_i hla
      exact chain_dropLast_getLast a hch hla
    · rename_i hla
      exact hla
  simp only [trimUnderscore]
  by_cases hh : s.head? = some '_'
  · rw [if_pos hh]
    exact key _ h.tail
  · rw [if_neg hh]
    exact key _ h

theorem trimUnderscore_subset (s : Str) : trimUnderscore s ⊆ s := by
  have key : ∀ a : Str,
      (if a.getLast? = some '_' then a.dropLast else a) ⊆ a := by
    intro a
    split
    · exact (List.dropLast_sublist a).subset
    · exact fun _ hx => hx
  simp only [trimUnderscore]
  by_cases hh : s.head? = some '_'
  · rw [if_pos hh]
    exact fun c hc => (List.tail_sublist s).subset (key _ hc)
  · rw [if_neg hh]
    exact key _

/-- C7 counterexample: the 51-character title `aaa…a b` (49 `a`s, a space,
a `b`) sanitizes to 49 `a`s followed by a trailing separator: trimming runs
before the 50-character cap, so truncation re-exposes a trailing `_`,
contradicting the claim that the result never ends in a separator. -/
theorem sanitizeFilename_trailing_sep_counterexample :
    (sanitizeFilename
        (List.replicate 49 'a' ++ [' ', 'b'])).getLast? = some '_' ∧
    (sanitizeFilename (List.replicate 49 'a' ++ [' ', 'b'])).length = 50 := by
  decide

/-- C7 (amended): `sanitizeFilename` always returns a non-empty string of
length at most 50 over lowercase letters, digits and `_`, with no two
adjacent separators and no leading separator; a trailing separator can
occur, but only when the 50-character cap truncated the name (the result
has exactly 50 characters); a name whose sanitation pipeline is empty
yields the fixed placeholder stem `image`. -/
theorem sanitizeFilename_shape (name : Str) :
    sanitizeFilename name ≠ [] ∧
    (sanitizeFilename name).length ≤ 50 ∧
    (∀ c ∈ sanitizeFilename name,
      ('a' ≤ c ∧ c ≤ 'z') ∨ ('0' ≤ c ∧ c ≤ '9') ∨ c = '_') ∧
    (sanitizeFilename name).head? ≠ some '_' ∧
    List.Chain' noDoubleUS (sanitizeFilename name) ∧
    ((sanitizeFilename name).getLast? = some '_' →
      (sanitizeFilename name).length = 50) ∧
    (sanitizeCore name = [] → sanitizeFilename name = ("image").data) := by
  have hchain4 : List.Chain' noDoubleUS
      (trimUnderscore
        (collapseUnderscores ((name.map Char.toLower).map keepAlnum))) :=
    trimUnderscore_chain _ (collapseAux_chain _ false)
  by_cases hemp : sanitizeCore name = []
  · have hval : sanitizeFilename name = ("image").data := by
      simp [sanitizeFilename, hemp]
    rw [hval]
    refine ⟨by decide, by decide, by decide, by decide, ?_,
      by decide, fun _ => rfl⟩
    simp [List.chain'_cons, noDoubleUS]
  · have hval : sanitizeFilename name = sanitizeCore name := by
      simp [sanitizeFilename, hemp]
    rw [hval]
    refine ⟨hemp, ?_, ?_, ?_, ?_, ?_, fun h => absurd h hemp⟩
    · unfold sanitizeCore
      exact List.length_take_le 50 _
    · intro c hc
      have hc4 : c ∈ trimUnderscore
          (collapseUnderscores ((name.map Char.toLower).map keepAlnum)) :=
        List.take_subset 50 _ hc
      have hc3 := trimUnderscore_subset _ hc4
      rcases collapseAux_mem _ false c hc3 with h2 | h2
      · rcases List.mem_map.mp h2 with ⟨x, hx, hxe⟩
        rcases List.mem_map.mp hx with ⟨y, _, hye⟩
        rw [← hxe, ← hye]
        exact keepAlnum_toLower_mem y
      · exact Or.inr (Or.inr h2)
    · have h4 := trimUnderscore_head
        (collapseUnderscores ((name.map Char.toLower).map keepAlnum))
        (collapseAux_chain _ false)
      unfold sanitizeCore
      cases hl : trimUnderscore
          (collapseUnderscores ((name.map Char.toLower).map keepAlnum)) with
      | nil => simp
      | cons c t =>
        rw [hl] at h4
        have : ((c :: t).take 50).head? = some c := rfl
        rw [this]
        simpa using h4
    · exact hchain4.prefix (List.take_prefix 50 _)
    · intro hlast
      by_contra hne50
      have hle := List.length_take_le 50
        (trimUnderscore
          (collapseUnderscores ((name.map Char.toLower).map keepAlnum)))
      have hlt : (sanitizeCore name).length < 50 := by
        have : (sanitizeCore name).length ≤ 50 := hle
        omega
      have hlen : (trimUnderscore
          (collapseUnderscores
            ((name.map Char.toLower).map keepAlnum))).length < 50 := by
        have := List.length_take 50
          (trimUnderscore
            (collapseUnderscores ((name.map Char.toLower).map keepAlnum)))
        unfold sanitizeCore at hlt
        omega
      have heq : sanitizeCore name = trimUnderscore
          (collapseUnderscores ((name.map Char.toLower).map keepAlnum)) := by
        unfold sanitizeCore
        exact List.take_of_length_le (by omega)
      rw [heq] at hlast
      exact trimUnderscore_getLast _ (collapseAux_chain _ false) hlast

/-- Witness for the amended C7 at the concrete title `My Art: #3`. -/
theorem sanitizeFilename_shape_witness :
    sanitizeFilename (("My Art: #3").data) ≠ [] ∧
    (sanitizeFilename (("My Art: #3").data)).length ≤ 50 ∧
    (∀ c ∈ sanitizeFilename (("My Art: #3").data),
      ('a' ≤ c ∧ c ≤ 'z') ∨ ('0' ≤ c ∧ c ≤ '9') ∨ c = '_') ∧
    (sanitizeFilename (("My Art: #3").data)).head? ≠ some '_' ∧
    List.Chain' noDoubleUS (sanitizeFilename (("My Art: #3").data)) ∧
    ((sanitizeFilename (("My Art: #3").data)).getLast? = some '_' →
      (sanitizeFilename (("My Art: #3").data)).length = 50) ∧
    (sanitizeCore (("My Art: #3").data) = [] →
      sanitizeFilename (("My Art: #3").data) = ("image").data) :=
  sanitizeFilename_shape (("My Art: #3").data)

/-! ## Replacement scanner lemmas (shared by C8, C3, C4) -/

theorem replaceFirstBy_cons_none (m : Str → Option Nat) (r : Str)
    (c : Char) (t : Str) (h : m (c :: t) = none) :
    replaceFirstBy m r (c :: t) = c :: replaceFirstBy m r t := by
  simp only [replaceFirstBy, h]

theorem replaceFirstBy_cons_some (m : Str → Option Nat) (r : Str)
    (c : Char) (t : Str) (l : Nat) (h : m (c :: t) = some l) :
    replaceFirstBy m r (c :: t) = r ++ (c :: t).drop l := by
  simp only [replaceFirstBy, h]

theorem replaceAllByAux_eq (m : Str → Option Nat) (r : Str) :
    ∀ (s : Str) (f1 f2 : Nat), s.length ≤ f1 → s.length ≤ f2 →
      replaceAllByAux m r f1 s = replaceAllByAux m r f2 s
  | [], f1, f2, _, _ => by
    cases f1 <;> cases f2 <;> rfl
  | c :: t, f1, f2, h1, h2 => by
    match f1, f2 with
    | g1 + 1, g2 + 1 =>
      simp only [List.length_cons] at h1 h2
      cases hm : m (c :: t) with
      | some l =>
        have ha : replaceAllByAux m r (g1 + 1) (c :: t) =
            r ++ replaceAllByAux m r g1 (t.drop (l - 1)) := by
          simp only [replaceAllByAux, hm]
        have hb : replaceAllByAux m r (g2 + 1) (c :: t) =
            r ++ replaceAllByAux m r g2 (t.drop (l - 1)) := by
          simp only [replaceAllByAux, hm]
        have hd : (t.drop (l - 1)).length ≤ t.length := by
          simp only [List.length_drop]
          omega
        rw [ha, hb,
          replaceAllByAux_eq m r (t.drop (l - 1)) g1 g2
            (by omega) (by omega)]
      | none =>
        have ha : replaceAllByAux m r (g1 + 1) (c :: t) =
            c :: replaceAllByAux m r g1 t := by
          simp only [replaceAllByAux, hm]
        have hb : replaceAllByAux m r (g2 + 1) (c :: t) =
            c :: replaceAllByAux m r g2 t := by
          simp only [replaceAllByAux, hm]
        rw [ha, hb,
          replaceAllByAux_eq m r t g1 g2 (by omega) (by omega)]
termination_by s => s.length
decreasing_by
  · simp only [List.length_cons, List.length_drop]; omega
  · simp only [List.length_cons]; omega

theorem replaceAllBy_cons_none (m : Str → Option Nat) (r : Str)
    (c : Char) (t : Str) (h : m (c :: t) = none) :
    replaceAllBy m r (c :: t) = c :: replaceAllBy m r t := by
  show replaceAllByAux m r (c :: t).length (c :: t) = _
  simp only [List.length_cons, replaceAllByAux, h]
  rfl

theorem replaceAllBy_cons_some (m : Str → Option Nat) (r : Str)
    (c : Char) (t : Str) (l : Nat) (h : m (c :: t) = some l)
    (hl : 1 ≤ l) :
    replaceAllBy m r (c :: t) = r ++ replaceAllBy m r ((c :: t).drop l) := by
  show replaceAllByAux m r (c :: t).length (c :: t) = _
  simp only [List.length_cons, replaceAllByAux, h]
  have hdrop : (c :: t).drop l = t.drop (l - 1) := by
    cases l with
    | zero => omega
    | succ k => simp [List.drop_succ_cons]
  rw [hdrop]
  have hd : (t.drop (l - 1)).length ≤ t.length := by
    simp only [List.length_drop]; omega
  rw [replaceAllByAux_eq m r (t.drop (l - 1)) t.length
    (t.drop (l - 1)).length hd (le_refl _)]
  rfl

theorem replaceFirstBy_ne_nil (m : Str → Option Nat) (r : Str)
    (hr : r ≠ []) : ∀ s : Str, s ≠ [] → replaceFirstBy m r s ≠ []
  | [], h => absurd rfl h
  | c :: t, _ => by
    cases hm : m (c :: t) with
    | some l =>
      rw [replaceFirstBy_cons_some m r c t l hm]
      simp [hr]
    | none =>
      rw [replaceFirstBy_cons_none m r c t hm]
      simp

theorem replaceAllBy_ne_nil (m : Str → Option Nat) (r : Str)
    (hr : r ≠ []) : ∀ s : Str, s ≠ [] → replaceAllBy m r s ≠ []
  | [], h => absurd rfl h
  | c :: t, _ => by
    cases hm : m (c :: t) with
    | some l =>
      show replaceAllByAux m r (c :: t).length (c :: t) ≠ []
      simp only [List.length_cons, replaceAllByAux, hm]
      simp [hr]
    | none =>
      show replaceAllByAux m r (c :: t).length (c :: t) ≠ []
      simp only [List.length_cons, replaceAllByAux, hm]
      simp

theorem isPrefixOf_cons_head (a : Char) (p : Str) (c : Char) (t : Str)
    (h : ((a :: p).isPrefixOf (c :: t)) = true) : a = c := by
  simp [List.isPrefixOf] at h
  exact h.1

theorem fsMatch_head (c : Char) (t : Str)
    (h : (fsMatch (c :: t)).isSome = true) : c = '/' := by
  unfold fsMatch at h
  split at h
  · rename_i hpre
    exact (isPrefixOf_cons_head '/' (['f', 's', '/']) c t hpre).symm
  · simp at h

theorem segMatch_head (d : Str) (c : Char) (t : Str)
    (h : (segMatch d (c :: t)).isSome = true) : c = '/' := by
  unfold segMatch at h
  split at h
  · rename_i hpre
    exact (isPrefixOf_cons_head '/' (d ++ ['H', '/']) c t hpre).symm
  · split at h
    · rename_i hpre
      exact (isPrefixOf_cons_head '/' (d ++ ['/']) c t hpre).symm
    · simp at h

theorem sufMatch_head (d : Str) (c : Char) (t : Str)
    (h : (sufMatch (d) (c :: t)).isSome = true) : c = '_' := by
  unfold sufMatch at h
  split at h
  · rename_i hpre
    exact (isPrefixOf_cons_head '_' (d ++ ['.']) c t hpre).symm
  · simp at h

theorem fsMatch_two_slashes (s : Str) : fsMatch ('/' :: '/' :: s) = none := by
  simp [fsMatch, List.isPrefixOf]

theorem segMatch_two_slashes (a : Char) (dt s : Str)
    (ha : (a == '/') = false) :
    segMatch (a :: dt) ('/' :: '/' :: s) = none := by
  simp [segMatch, List.isPrefixOf, ha]

theorem sufMatch_slash (d s : Str) : sufMatch d ('/' :: s) = none := by
  simp [sufMatch, List.isPrefixOf]

theorem replaceFirstBy_keeps_https (m : Str → Option Nat) (r : Str)
    (hcs : ∀ c s, (m (c :: s)).isSome = true → c = '/' ∨ c = '_')
    (hd : ∀ s, m ('/' :: '/' :: s) = none)
    (hf : ∀ s l, m ('/' :: s) = some l → r.head? = some '/') (t : Str) :
    ∃ u, replaceFirstBy m r (("https://").data ++ t) =
      ("https://").data ++ u := by
  have hnone : ∀ c rest, ¬ c = '/' → ¬ c = '_' → m (c :: rest) = none := by
    intro c rest h1 h2
    cases hm : m (c :: rest) with
    | none => rfl
    | some l =>
      rcases hcs c rest (by simp [hm]) with h | h
      exacts [absurd h h1, absurd h h2]
  show ∃ u, replaceFirstBy m r
      ('h' :: 't' :: 't' :: 'p' :: 's' :: ':' :: '/' :: '/' :: t) =
      'h' :: 't' :: 't' :: 'p' :: 's' :: ':' :: '/' :: '/' :: u
  rw [replaceFirstBy_cons_none m r 'h' _ (hnone 'h' _ (by decide) (by decide)),
    replaceFirstBy_cons_none m r 't' _ (hnone 't' _ (by decide) (by decide)),
    replaceFirstBy_cons_none m r 't' _ (hnone 't' _ (by decide) (by decide)),
    replaceFirstBy_cons_none m r 'p' _ (hnone 'p' _ (by decide) (by decide)),
    replaceFirstBy_cons_none m r 's' _ (hnone 's' _ (by decide) (by decide)),
    replaceFirstBy_cons_none m r ':' _ (hnone ':' _ (by decide) (by decide)),
    replaceFirstBy_cons_none m r '/' _ (hd t)]
  cases hm : m ('/' :: t) with
  | some l =>
    rw [replaceFirstBy_cons_some m r '/' t l hm]
    obtain ⟨rt, hr⟩ : ∃ rt, r = '/' :: rt := by
      have hh := hf t l hm
      cases r with
      | nil => simp at hh
      | cons a rr =>
        refine ⟨rr, ?_⟩
        have : a = '/' := by simpa using hh
        rw [this]
    refine ⟨rt ++ ('/' :: t).drop l, ?_⟩
    rw [hr]
    simp
  | none =>
    rw [replaceFirstBy_cons_none m r '/' t hm]
    exact ⟨replaceFirstBy m r t, rfl⟩

theorem replaceAllBy_keeps_https (m : Str → Option Nat) (r : Str)
    (hcs : ∀ c s, (m (c :: s)).isSome = true → c = '/' ∨ c = '_')
    (hd : ∀ s, m ('/' :: '/' :: s) = none)
    (hf : ∀ s l, m ('/' :: s) = some l → r.head? = some '/')
    (hone : ∀ s l, m s = some l → 1 ≤ l) (t : Str) :
    ∃ u, replaceAllBy m r (("https://").data ++ t) =
      ("https://").data ++ u := by
  have hnone : ∀ c rest, ¬ c = '/' → ¬ c = '_' → m (c :: rest) = none := by
    intro c rest h1 h2
    cases hm : m (c :: rest) with
    | none => rfl
    | some l =>
      rcases hcs c rest (by simp [hm]) with h | h
      exacts [absurd h h1, absurd h h2]
  show ∃ u, replaceAllBy m r
      ('h' :: 't' :: 't' :: 'p' :: 's' :: ':' :: '/' :: '/' :: t) =
      'h' :: 't' :: 't' :: 'p' :: 's' :: ':' :: '/' :: '/' :: u
  rw [replaceAllBy_cons_none m r 'h' _ (hnone 'h' _ (by decide) (by decide)),
    replaceAllBy_cons_none m r 't' _ (hnone 't' _ (by decide) (by decide)),
    replaceAllBy_cons_none m r 't' _ (hnone 't' _ (by decide) (by decide)),
    replaceAllBy_cons_none m r 'p' _ (hnone 'p' _ (by decide) (by decide)),
    replaceAllBy_cons_none m r 's' _ (hnone 's' _ (by decide) (by decide)),
    replaceAllBy_cons_none m r ':' _ (hnone ':' _ (by decide) (by decide)),
    replaceAllBy_cons_none m r '/' _ (hd t)]
  cases hm : m ('/' :: t) with
  | some l =>
    rw [replaceAllBy_cons_some m r '/' t l hm (hone _ l hm)]
    obtain ⟨rt, hr⟩ : ∃ rt, r = '/' :: rt := by
      have hh := hf t l hm
      cases r with
      | nil => simp at hh
      | cons a rr =>
        refine ⟨rr, ?_⟩
        have : a = '/' := by simpa using hh
        rw [this]
    refine ⟨rt ++ replaceAllBy m r (('/' :: t).drop l), ?_⟩
    rw [hr]
    simp
  | none =>
    rw [replaceAllBy_cons_none m r '/' t hm]
    exact ⟨replaceAllBy m r t, rfl⟩

theorem fsMatch_pos (s : Str) (l : Nat) (h : fsMatch s = some l) : 5 ≤ l := by
  unfold fsMatch at h
  split at h
  · rcases Option.map_eq_some'.mp h with ⟨k, _, hk⟩
    omega
  · simp at h

theorem segMatch_pos (d : Str) (s : Str) (l : Nat)
    (h : segMatch d s = some l) : 2 ≤ l := by
  unfold segMatch at h
  split at h
  · cases h; omega
  · split at h
    · cases h; omega
    · simp at h

theorem sufMatch_pos (d : Str) (s : Str) (l : Nat)
    (h : sufMatch d s = some l) : 2 ≤ l := by
  unfold sufMatch at h
  split at h
  · cases h; omega
  · simp at h

theorem forceHttps_ne_nil (s : Str) (h : s ≠ []) : forceHttps s ≠ [] := by
  unfold forceHttps
  split
  · simp
  · exact h

/-! ## C8 -/

/-- C8 counterexample: a non-empty `http://` URL is returned unchanged,
with its insecure scheme intact — `getHighestQualityUrl` does not force
https on every non-empty input, only on protocol-relative (`//…`) ones. -/
theorem upscale_http_scheme_counterexample :
    getHighestQualityUrl (("http://a/b.jpg").data) =
      ("http://a/b.jpg").data ∧
    (("https://").data).isPrefixOf
      (getHighestQualityUrl (("http://a/b.jpg").data)) = false := by
  decide

/-- C8 (amended): `getHighestQualityUrl` is total and returns the empty
string exactly when its input is empty; the secure-scheme forcing applies
to protocol-relative inputs: every input starting with `//` is returned
with an `https://` scheme.  Inputs carrying an explicit scheme keep it. -/
theorem upscale_empty_iff_and_protocol_relative_https (s : Str) :
    (getHighestQualityUrl s = [] ↔ s = []) ∧
    ((("//").data).isPrefixOf s = true →
      (("https://").data).isPrefixOf (getHighestQualityUrl s) = true) := by
  have hne_nil : s ≠ [] → getHighestQualityUrl s ≠ [] := by
    intro hne
    simp only [getHighestQualityUrl]
    rw [if_neg hne]
    refine replaceAllBy_ne_nil _ _ (by decide) _ ?_
    refine replaceAllBy_ne_nil _ _ (by decide) _ ?_
    refine replaceAllBy_ne_nil _ _ (by decide) _ ?_
    refine replaceAllBy_ne_nil _ _ (by decide) _ ?_
    refine replaceAllBy_ne_nil _ _ (by decide) _ ?_
    refine replaceFirstBy_ne_nil _ _ (by decide) _ ?_
    refine replaceFirstBy_ne_nil _ _ (by decide) _ ?_
    refine replaceFirstBy_ne_nil _ _ (by decide) _ ?_
    refine replaceFirstBy_ne_nil _ _ (by decide) _ ?_
    refine replaceFirstBy_ne_nil _ _ (by decide) _ ?_
    refine replaceFirstBy_ne_nil _ _ (by decide) _ ?_
    exact forceHttps_ne_nil s hne
  constructor
  · constructor
    · intro h
      by_contra hne
      exact hne_nil hne h
    · rintro rfl
      rfl
  · intro hpre
    obtain ⟨t, rfl⟩ : ∃ t, s = '/' :: '/' :: t := by
      cases s with
      | nil => simp [List.isPrefixOf] at hpre
      | cons a s' =>
        cases s' with
        | nil => simp [List.isPrefixOf] at hpre
        | cons b t =>
          simp [List.isPrefixOf] at hpre
          exact ⟨t, by rw [← hpre.1, ← hpre.2]⟩
    have hne2 : ('/' :: '/' :: t : Str) ≠ [] := by simp
    have h0 : forceHttps ('/' :: '/' :: t) = ("https://").data ++ t := by
      simp [forceHttps, List.isPrefixOf]
    have hcsS : ∀ (d : Str) c s',
        (segMatch d (c :: s')).isSome = true → c = '/' ∨ c = '_' :=
      fun d c s' h => Or.inl (segMatch_head d c s' h)
    have hcsU : ∀ (d : Str) c s',
        (sufMatch d (c :: s')).isSome = true → c = '/' ∨ c = '_' :=
      fun d c s' h => Or.inr (sufMatch_head d c s' h)
    have hfU : ∀ (d : Str) s' l, sufMatch d ('/' :: s') = some l →
        (("_2000.").data).head? = some '/' :=
      fun d s' l h => absurd h (by simp [sufMatch_slash])
    obtain ⟨u1, h1⟩ := replaceFirstBy_keeps_https fsMatch
      (("/original/").data) (fun c s' h => Or.inl (fsMatch_head c s' h))
      fsMatch_two_slashes (fun _ _ _ => rfl) t
    obtain ⟨u2, h2⟩ := replaceFirstBy_keeps_https (segMatch (("200").data))
      (("/2000/").data) (hcsS _)
      (fun s' => segMatch_two_slashes '2' _ s' (by decide))
      (fun _ _ _ => rfl) u1
    obtain ⟨u3, h3⟩ := replaceFirstBy_keeps_https (segMatch (("400").data))
      (("/2000/").data) (hcsS _)
      (fun s' => segMatch_two_slashes '4' _ s' (by decide))
      (fun _ _ _ => rfl) u2
    obtain ⟨u4, h4⟩ := replaceFirstBy_keeps_https (segMatch (("600").data))
      (("/2000/").data) (hcsS _)
      (fun s' => segMatch_two_slashes '6' _ s' (by decide))
      (fun _ _ _ => rfl) u3
    obtain ⟨u5, h5⟩ := replaceFirstBy_keeps_https (segMatch (("800").data))
      (("/2000/").data) (hcsS _)
      (fun s' => segMatch_two_slashes '8' _ s' (by decide))
      (fun _ _ _ => rfl) u4
    obtain ⟨u6, h6⟩ := replaceFirstBy_keeps_https (segMatch (("1400").data))
      (("/2000/").data) (hcsS _)
      (fun s' => segMatch_two_slashes '1' _ s' (by decide))
      (fun _ _ _ => rfl) u5
    obtain ⟨u7, h7⟩ := replaceAllBy_keeps_https (sufMatch (("200").data))
      (("_2000.").data) (hcsU _) (fun s' => sufMatch_slash _ ('/' :: s'))
      (hfU _) (fun s2 l2 h2a => Nat.le_of_succ_le (sufMatch_pos _ s2 l2 h2a)) u6
    obtain ⟨u8, h8⟩ := replaceAllBy_keeps_https (sufMatch (("400").data))
      (("_2000.").data) (hcsU _) (fun s' => sufMatch_slash _ ('/' :: s'))
      (hfU _) (fun s2 l2 h2a => Nat.le_of_succ_le (sufMatch_pos _ s2 l2 h2a)) u7
    obtain ⟨u9, h9⟩ := replaceAllBy_keeps_https (sufMatch (("600").data))
      (("_2000.").data) (hcsU _) (fun s' => sufMatch_slash _ ('/' :: s'))
      (hfU _) (fun s2 l2 h2a => Nat.le_of_succ_le (sufMatch_pos _ s2 l2 h2a)) u8
    obtain ⟨u10, h10⟩ := replaceAllBy_keeps_https (sufMatch (("800").data))
      (("_2000.").data) (hcsU _) (fun s' => sufMatch_slash _ ('/' :: s'))
      (hfU _) (fun s2 l2 h2a => Nat.le_of_succ_le (sufMatch_pos _ s2 l2 h2a)) u9
    obtain ⟨u11, h11⟩ := replaceAllBy_keeps_https (sufMatch (("1400").data))
      (("_2000.").data) (hcsU _) (fun s' => sufMatch_slash _ ('/' :: s'))
      (hfU _) (fun s2 l2 h2a => Nat.le_of_succ_le (sufMatch_pos _ s2 l2 h2a)) u10
    simp only [getHighestQualityUrl]
    rw [if_neg hne2, h0, h1, h2, h3, h4, h5, h6, h7, h8, h9, h10, h11]
    rw [List.isPrefixOf_iff_prefix]
    exact List.prefix_append _ _

/-- Witness for the amended C8 at the protocol-relative input
`//a/200/b.jpg`. -/
theorem upscale_empty_iff_and_protocol_relative_https_witness :
    (getHighestQualityUrl (("//a/200/b.jpg").data) = [] ↔
      ("//a/200/b.jpg").data = []) ∧
    ((("//").data).isPrefixOf (("//a/200/b.jpg").data) = true →
      (("https://").data).isPrefixOf
        (getHighestQualityUrl (("//a/200/b.jpg").data)) = true) :=
  upscale_empty_iff_and_protocol_relative_https (("//a/200/b.jpg").data)

/-! ## C4 -/

theorem getHighestQualityUrl_ne_nil (s : Str) (hne : s ≠ []) :
    getHighestQualityUrl s ≠ [] := by
  simp only [getHighestQualityUrl]
  rw [if_neg hne]
  refine replaceAllBy_ne_nil _ _ (by decide) _ ?_
  refine replaceAllBy_ne_nil _ _ (by decide) _ ?_
  refine replaceAllBy_ne_nil _ _ (by decide) _ ?_
  refine replaceAllBy_ne_nil _ _ (by decide) _ ?_
  refine replaceAllBy_ne_nil _ _ (by decide) _ ?_
  refine replaceFirstBy_ne_nil _ _ (by decide) _ ?_
  refine replaceFirstBy_ne_nil _ _ (by decide) _ ?_
  refine replaceFirstBy_ne_nil _ _ (by decide) _ ?_
  refine replaceFirstBy_ne_nil _ _ (by decide) _ ?_
  refine replaceFirstBy_ne_nil _ _ (by decide) _ ?_
  refine replaceFirstBy_ne_nil _ _ (by decide) _ ?_
  exact forceHttps_ne_nil s hne

theorem extractLoop_urls (title : Str) :
    ∀ (raws : List Str) (seen : List Str) (acc : List BehanceImage),
      (∀ u ∈ raws, getHighestQualityUrl u ≠ []) →
      (extractLoop title raws seen acc).map (fun i => i.url) =
        acc.map (fun i => i.url) ++
          firstSeenDedupAux (raws.map getHighestQualityUrl) seen
  | [], seen, acc, _ => by simp [extractLoop, firstSeenDedupAux]
  | u :: rest, seen, acc, hne => by
    have hu : getHighestQualityUrl u ≠ [] :=
      hne u (List.mem_cons_self u rest)
    have hrest : ∀ v ∈ rest, getHighestQualityUrl v ≠ [] :=
      fun v hv => hne v (List.mem_cons_of_mem u hv)
    by_cases hmem : getHighestQualityUrl u ∈ seen
    · rw [show extractLoop title (u :: rest) seen acc =
          extractLoop title rest seen acc by
        simp only [extractLoop]
        rw [if_neg (by intro ⟨_, h2⟩; exact h2 hmem)]]
      rw [extractLoop_urls title rest seen acc hrest]
      simp only [List.map_cons, firstSeenDedupAux, if_pos hmem]
    · rw [show extractLoop title (u :: rest) seen acc =
          extractLoop title rest (getHighestQualityUrl u :: seen)
            (acc ++ [⟨getHighestQualityUrl u,
              sanitizeFilename title ++
                '_' :: (Nat.repr (acc.length + 1)).data ++
                getExtensionFromUrl (getHighestQualityUrl u)⟩]) by
        simp only [extractLoop]
        rw [if_pos ⟨hu, hmem⟩]]
      rw [extractLoop_urls title rest _ _ hrest]
      simp only [List.map_cons, firstSeenDedupAux, if_neg hmem,
        List.map_append, List.map_cons, List.map_nil]
      simp

theorem extractLoop_filenames (title : Str) :
    ∀ (raws : List Str) (seen : List Str) (acc : List BehanceImage),
      (∀ k (hk : k < acc.length), (acc.get ⟨k, hk⟩).filename =
        sanitizeFilename title ++ '_' :: (Nat.repr (k + 1)).data ++
          getExtensionFromUrl ((acc.get ⟨k, hk⟩).url)) →
      ∀ k (hk : k < (extractLoop title raws seen acc).length),
        ((extractLoop title raws seen acc).get ⟨k, hk⟩).filename =
          sanitizeFilename title ++ '_' :: (Nat.repr (k + 1)).data ++
            getExtensionFromUrl
              ((extractLoop title raws seen acc).get ⟨k, hk⟩).url
  | [], seen, acc, hacc => by
    simpa [extractLoop] using hacc
  | u :: rest, seen, acc, hacc => by
    by_cases hguard : getHighestQualityUrl u ≠ [] ∧
        getHighestQualityUrl u ∉ seen
    · rw [show extractLoop title (u :: rest) seen acc =
          extractLoop title rest (getHighestQualityUrl u :: seen)
            (acc ++ [⟨getHighestQualityUrl u,
              sanitizeFilename title ++
                '_' :: (Nat.repr (acc.length + 1)).data ++
                getExtensionFromUrl (getHighestQualityUrl u)⟩]) by
        simp only [extractLoop]
        rw [if_pos hguard]]
      refine extractLoop_filenames title rest _ _ ?_
      intro k hk
      rcases Nat.lt_or_ge k acc.length with hlt | hge
      · have hget : (acc ++ [(⟨getHighestQualityUrl u, _⟩ :
            BehanceImage)]).get ⟨k, hk⟩ = acc.get ⟨k, hlt⟩ :=
          List.get_append k hlt
        rw [hget]
        exact hacc k hlt
      · have hkeq : k = acc.length := by
          simp only [List.length_append, List.length_singleton] at hk
          omega
        subst hkeq
        have hget : (acc ++ [(⟨getHighestQualityUrl u,
            sanitizeFilename title ++
              '_' :: (Nat.repr (acc.length + 1)).data ++
              getExtensionFromUrl (getHighestQualityUrl u)⟩ :
            BehanceImage)]).get ⟨acc.length, hk⟩ =
            ⟨getHighestQualityUrl u,
              sanitizeFilename title ++
                '_' :: (Nat.repr (acc.length + 1)).data ++
                getExtensionFromUrl (getHighestQualityUrl u)⟩ :=
          List.get_of_append rfl rfl
        rw [hget]
    · rw [show extractLoop title (u :: rest) seen acc =
          extractLoop title rest seen acc by
        simp only [extractLoop]
        rw [if_neg hguard]]
      exact extractLoop_filenames title rest seen acc hacc

theorem firstSeenDedupAux_nodup :
    ∀ (l : List Str) (seen : List Str),
      (firstSeenDedupAux l seen).Nodup ∧
      ∀ x ∈ firstSeenDedupAux l seen, x ∉ seen
  | [], seen => by simp [firstSeenDedupAux]
  | u :: rest, seen => by
    by_cases hmem : u ∈ seen
    · simp only [firstSeenDedupAux, if_pos hmem]
      exact firstSeenDedupAux_nodup rest seen
    · simp only [firstSeenDedupAux, if_neg hmem]
      obtain ⟨hnd, hnotin⟩ := firstSeenDedupAux_nodup rest (u :: seen)
      refine ⟨List.nodup_cons.mpr ⟨?_, hnd⟩, ?_⟩
      · intro hin
        exact hnotin u hin (List.mem_cons_self u seen)
      · intro x hx
        rcases List.mem_cons.mp hx with rfl | hx'
        · exact hmem
        · intro hxs
          exact hnotin x hx' (List.mem_cons_of_mem u hxs)

theorem firstSeenDedupAux_length_le :
    ∀ (l : List Str) (seen : List Str),
      (firstSeenDedupAux l seen).length ≤ l.length
  | [], seen => by simp [firstSeenDedupAux]
  | u :: rest, seen => by
    by_cases hmem : u ∈ seen
    · simp only [firstSeenDedupAux, if_pos hmem, List.length_cons]
      have := firstSeenDedupAux_length_le rest seen
      omega
    · simp only [firstSeenDedupAux, if_neg hmem, List.length_cons]
      have := firstSeenDedupAux_length_le rest (u :: seen)
      omega

/-- C4: over any sequence of `N` non-empty raw references of which `D` are
duplicates after upscaling to the canonical URL, extraction yields exactly
`N − D` descriptors: their canonical URLs are the raw URLs upscaled and
deduplicated in first-seen order, pairwise distinct, and the `k`-th
descriptor (0-based) carries the filename
`sanitize(title) ++ _ ++ (k+1) ++ inferred extension`, so the 1-based
indices increase strictly from 1 to `N − D`. -/
theorem extract_dedup_first_seen_and_filenames (title : Str)
    (raws : List Str) (hne : ∀ u ∈ raws, u ≠ []) :
    (extractBehanceImages title raws).map (fun i => i.url) =
      firstSeenDedup (raws.map getHighestQualityUrl) ∧
    (extractBehanceImages title raws).length +
      (raws.length -
        (firstSeenDedup (raws.map getHighestQualityUrl)).length) =
      raws.length ∧
    ((extractBehanceImages title raws).map (fun i => i.url)).Nodup ∧
    ∀ k (hk : k < (extractBehanceImages title raws).length),
      ((extractBehanceImages title raws).get ⟨k, hk⟩).filename =
        sanitizeFilename title ++ '_' :: (Nat.repr (k + 1)).data ++
          getExtensionFromUrl
            ((extractBehanceImages title raws).get ⟨k, hk⟩).url := by
  have hne' : ∀ u ∈ raws, getHighestQualityUrl u ≠ [] :=
    fun u hu => getHighestQualityUrl_ne_nil u (hne u hu)
  have hurls : (extractBehanceImages title raws).map (fun i => i.url) =
      firstSeenDedup (raws.map getHighestQualityUrl) := by
    unfold extractBehanceImages firstSeenDedup
    rw [extractLoop_urls title raws [] [] hne']
    simp
  refine ⟨hurls, ?_, ?_, ?_⟩
  · have hlen : (extractBehanceImages title raws).length =
        (firstSeenDedup (raws.map getHighestQualityUrl)).length := by
      rw [← hurls, List.length_map]
    have hle :
        (firstSeenDedup (raws.map getHighestQualityUrl)).length ≤
          raws.length := by
      have := firstSeenDedupAux_length_le
        (raws.map getHighestQualityUrl) []
      simpa [firstSeenDedup] using this
    omega
  · rw [hurls]
    exact (firstSeenDedupAux_nodup (raws.map getHighestQualityUrl) []).1
  · exact extractLoop_filenames title raws [] [] (by simp)

/-- Witness for C4: three raw references, two of which collapse to the
same canonical URL (`N = 3`, `D = 1`). -/
theorem extract_dedup_first_seen_and_filenames_witness :
    (extractBehanceImages (("T").data)
        [("//a/200/x.png").data, ("https://a/200/x.png").data,
         ("//b/400/y.webp").data]).map (fun i => i.url) =
      firstSeenDedup
        ([("//a/200/x.png").data, ("https://a/200/x.png").data,
          ("//b/400/y.webp").data].map getHighestQualityUrl) ∧
    (extractBehanceImages (("T").data)
        [("//a/200/x.png").data, ("https://a/200/x.png").data,
         ("//b/400/y.webp").data]).length +
      ([("//a/200/x.png").data, ("https://a/200/x.png").data,
        ("//b/400/y.webp").data].length -
        (firstSeenDedup
          ([("//a/200/x.png").data, ("https://a/200/x.png").data,
            ("//b/400/y.webp").data].map getHighestQualityUrl)).length) =
      [("//a/200/x.png").data, ("https://a/200/x.png").data,
       ("//b/400/y.webp").data].length ∧
    ((extractBehanceImages (("T").data)
        [("//a/200/x.png").data, ("https://a/200/x.png").data,
         ("//b/400/y.webp").data]).map (fun i => i.url)).Nodup ∧
    ∀ k (hk : k < (extractBehanceImages (("T").data)
        [("//a/200/x.png").data, ("https://a/200/x.png").data,
         ("//b/400/y.webp").data]).length),
      ((extractBehanceImages (("T").data)
          [("//a/200/x.png").data, ("https://a/200/x.png").data,
           ("//b/400/y.webp").data]).get ⟨k, hk⟩).filename =
        sanitizeFilename (("T").data) ++
          '_' :: (Nat.repr (k + 1)).data ++
          getExtensionFromUrl
            ((extractBehanceImages (("T").data)
              [("//a/200/x.png").data, ("https://a/200/x.png").data,
               ("//b/400/y.webp").data]).get ⟨k, hk⟩).url :=
  extract_dedup_first_seen_and_filenames (("T").data)
    [("//a/200/x.png").data, ("https://a/200/x.png").data,
     ("//b/400/y.webp").data] (by decide)

/-! ## C3: marker occurrence machinery -/

theorem prefix_append_split (f u y : Str) (h : f <+: u ++ y) :
    (f <+: u) ∨ (u <+: f ∧ f.drop u.length <+: y) := by
  obtain ⟨z, hz⟩ := h
  rcases List.append_eq_append_iff.mp hz with ⟨a', ha, _⟩ | ⟨c', hc, hy⟩
  · exact Or.inl ⟨a', ha.symm⟩
  · refine Or.inr ⟨⟨c', hc.symm⟩, ?_⟩
    rw [hc, List.drop_left]
    exact ⟨z, hy.symm⟩

theorem prefix_append_of_drop (f u y : Str) (hu : u <+: f)
    (hd : f.drop u.length <+: y) : f <+: u ++ y := by
  obtain ⟨z, hz⟩ := hd
  refine ⟨z, ?_⟩
  have hf : u ++ f.drop u.length = f := by
    obtain ⟨w, hw⟩ := hu
    rw [← hw, List.drop_left]
  rw [← hf, List.append_assoc, hz]

theorem drop_append_ge (x y : Str) (i : Nat) (h : x.length ≤ i) :
    (x ++ y).drop i = y.drop (i - x.length) := by
  rw [List.drop_append_eq_append_drop, List.drop_eq_nil_of_le h,
    List.nil_append]

theorem drop_append_le (x y : Str) (i : Nat) (h : i ≤ x.length) :
    (x ++ y).drop i = x.drop i ++ y := by
  rw [List.drop_append_eq_append_drop, Nat.sub_eq_zero_of_le h,
    List.drop_zero]

theorem drop_len_sub_one (x : Str) (c : Char) (h : x.getLast? = some c) :
    x.drop (x.length - 1) = [c] := by
  have hne : x ≠ [] := by
    intro h'
    rw [h'] at h
    simp at h
  have hx : x.dropLast ++ [x.getLast hne] = x := List.dropLast_append_getLast hne
  have hc : x.getLast hne = c := by
    rw [List.getLast?_eq_getLast x hne] at h
    exact (Option.some.injEq _ _).mp h
  calc x.drop (x.length - 1)
      = (x.dropLast ++ [x.getLast hne]).drop (x.length - 1) := by rw [hx]
    _ = [x.getLast hne].drop ((x.length - 1) - x.dropLast.length) := by
        rw [drop_append_ge]
        rw [List.length_dropLast]
    _ = [c] := by
        rw [List.length_dropLast, Nat.sub_self, List.drop_zero, hc]

theorem segMatch_isSome_iff (d x : Str) :
    (segMatch d x).isSome = true ↔
      ((('/' :: d) ++ ['H', '/']) <+: x ∨ (('/' :: d) ++ ['/']) <+: x) := by
  unfold segMatch
  split
  · rename_i h
    simp only [Option.isSome_some, true_iff]
    exact Or.inl (List.isPrefixOf_iff_prefix.mp h)
  · split
    · rename_i h
      simp only [Option.isSome_some, true_iff]
      exact Or.inr (List.isPrefixOf_iff_prefix.mp h)
    · rename_i h1 h2
      simp only [Option.isSome_none, Bool.false_eq_true, false_iff]
      intro hor
      rcases hor with h | h
      · exact h1 (List.isPrefixOf_iff_prefix.mpr h)
      · exact h2 (List.isPrefixOf_iff_prefix.mpr h)

theorem segMatch_eq_some (d x : Str) (l : Nat) (h : segMatch d x = some l) :
    ((('/' :: d) ++ ['H', '/']) <+: x ∧ l = d.length + 3) ∨
    ((('/' :: d) ++ ['/']) <+: x ∧ l = d.length + 2) := by
  unfold segMatch at h
  split at h
  · rename_i hp
    exact Or.inl ⟨List.isPrefixOf_iff_prefix.mp hp, (Option.some.injEq _ _).mp h.symm⟩
  · split at h
    · rename_i hp
      exact Or.inr ⟨List.isPrefixOf_iff_prefix.mp hp, (Option.some.injEq _ _).mp h.symm⟩
    · simp at h

theorem sufMatch_isSome_iff (d x : Str) :
    (sufMatch d x).isSome = true ↔ (('_' :: d) ++ ['.']) <+: x := by
  unfold sufMatch
  split
  · rename_i h
    simp only [Option.isSome_some, true_iff]
    exact List.isPrefixOf_iff_prefix.mp h
  · rename_i h
    simp only [Option.isSome_none, Bool.false_eq_true, false_iff]
    intro hp
    exact h (List.isPrefixOf_iff_prefix.mpr hp)

theorem sufMatch_eq_some (d x : Str) (l : Nat) (h : sufMatch d x = some l) :
    (('_' :: d) ++ ['.']) <+: x ∧ l = d.length + 2 := by
  unfold sufMatch at h
  split at h
  · rename_i hp
    exact ⟨List.isPrefixOf_iff_prefix.mp hp, (Option.some.injEq _ _).mp h.symm⟩
  · simp at h

theorem findSlash_decomp :
    ∀ (y : Str) (k : Nat), findSlash y = some k →
      ∃ w t, y = w ++ '/' :: t ∧ wOK w ∧ k = w.length
  | [], k => by simp [findSlash]
  | c :: t, k => by
    intro h
    unfold findSlash at h
    by_cases hc : (c == '/') = true
    · rw [if_pos hc] at h
      refine ⟨[], t, ?_, by simp [wOK], by simpa using h.symm⟩
      have : c = '/' := by simpa using hc
      rw [this]
      rfl
    · rw [if_neg hc] at h
      by_cases hdc : dotChar c = true
      · rw [if_pos hdc] at h
        rcases Option.map_eq_some'.mp h with ⟨k', hk', rfl⟩
        obtain ⟨w, t', ht, hw, hk⟩ := findSlash_decomp t k' hk'
        refine ⟨c :: w, t', by rw [ht]; rfl, ?_, by simp [hk]⟩
        intro x hx
        rcases List.mem_cons.mp hx with rfl | hx'
        · exact ⟨hdc, by simpa using hc⟩
        · exact hw x hx'
      · rw [if_neg hdc] at h
        simp at h

theorem findSlash_of_wOK :
    ∀ (w : Str) (t : Str), wOK w → findSlash (w ++ '/' :: t) = some w.length
  | [], t, _ => by simp [findSlash]
  | c :: w', t, hw => by
    have hc := hw c (List.mem_cons_self c w')
    have hw' : wOK w' := fun x hx => hw x (List.mem_cons_of_mem c hx)
    have heq : findSlash (c :: (w' ++ '/' :: t)) =
        if (c == '/') = true then some 0
        else if dotChar c = true then (findSlash (w' ++ '/' :: t)).map (fun x => x + 1)
        else none := rfl
    show findSlash (c :: (w' ++ '/' :: t)) = some (c :: w').length
    rw [heq, if_neg (by simpa using hc.2), if_pos hc.1]
    rw [findSlash_of_wOK w' t hw']
    rfl

theorem fsMatch_decomp (x : Str) (l : Nat) (h : fsMatch x = some l) :
    ∃ w t, wOK w ∧
      x = '/' :: 'f' :: 's' :: '/' :: (w ++ '/' :: t) ∧ l = w.length + 5 := by
  unfold fsMatch at h
  split at h
  · rename_i hp
    obtain ⟨rest, hrest⟩ := List.isPrefixOf_iff_prefix.mp hp
    rcases Option.map_eq_some'.mp h with ⟨k, hk, rfl⟩
    have hxd : x.drop 4 = rest := by
      rw [← hrest]
      rfl
    rw [hxd] at hk
    obtain ⟨w, t, ht, hw, hkw⟩ := findSlash_decomp rest k hk
    refine ⟨w, t, hw, ?_, by omega⟩
    rw [← hrest, ht]
    rfl
  · simp at h

theorem fsMatch_of_shape (w t : Str) (hw : wOK w) :
    fsMatch ('/' :: 'f' :: 's' :: '/' :: (w ++ '/' :: t)) =
      some (w.length + 5) := by
  unfold fsMatch
  rw [if_pos (by simp [List.isPrefixOf])]
  have : ('/' :: 'f' :: 's' :: '/' :: (w ++ '/' :: t)).drop 4 =
      w ++ '/' :: t := rfl
  rw [this, findSlash_of_wOK w t hw]
  rfl

theorem prefix_of_append_of_le (f u y : Str) (h : f <+: u ++ y)
    (hl : f.length ≤ u.length) : f <+: u := by
  rcases prefix_append_split f u y h with h1 | ⟨h2, _⟩
  · exact h1
  · rw [List.IsPrefix.eq_of_length_le h2 hl]

theorem prefix_getElem (f x : Str) (h : f <+: x) (n : Nat)
    (hn : n < f.length) : x[n]? = f[n]? := by
  obtain ⟨z, rfl⟩ := h
  rw [List.getElem?_append, if_pos hn]

theorem head_of_cons_append (c : Char) (t y : Str) :
    ((c :: t) ++ y).head? = some c := rfl

theorem wOK_append (w1 w2 : Str) (h1 : wOK w1) (h2 : wOK w2) :
    wOK (w1 ++ w2) := by
  intro c hc
  rcases List.mem_append.mp hc with h | h
  · exact h1 c h
  · exact h2 c h

theorem wOK_take (w : Str) (h : wOK w) (n : Nat) : wOK (w.take n) :=
  fun c hc => h c ((List.take_sublist n w).mem hc)

theorem wOK_drop (w : Str) (h : wOK w) (n : Nat) : wOK (w.drop n) :=
  fun c hc => h c ((List.drop_sublist n w).mem hc)

theorem prefix_eq_take (f x : Str) (h : f <+: x) : x.take f.length = f :=
  (List.prefix_iff_eq_take.mp h).symm

/-- Nil and positivity facts for the marker matchers. -/
theorem fsMatch_nil : fsMatch [] = none := by
  simp [fsMatch, List.isPrefixOf]

theorem segMatch_nil (d : Str) : segMatch d [] = none := by
  simp [segMatch, List.isPrefixOf]

theorem sufMatch_nil (d : Str) : sufMatch d [] = none := by
  simp [sufMatch, List.isPrefixOf]

theorem mem_markerMatchers_elim (m : Str → Option Nat)
    (h : m ∈ markerMatchers) :
    m = fsMatch ∨ (∃ d ∈ sizeBlocks, m = segMatch d) ∨
      (∃ d ∈ sizeBlocks, m = sufMatch d) := by
  rcases List.mem_cons.mp h with h | h
  · exact Or.inl h
  · rcases List.mem_append.mp h with h | h
    · obtain ⟨d, hd, rfl⟩ := List.mem_map.mp h
      exact Or.inr (Or.inl ⟨d, hd, rfl⟩)
    · obtain ⟨d, hd, rfl⟩ := List.mem_map.mp h
      exact Or.inr (Or.inr ⟨d, hd, rfl⟩)

theorem marker_nil (m : Str → Option Nat) (h : m ∈ markerMatchers) :
    m [] = none := by
  rcases mem_markerMatchers_elim m h with rfl | ⟨d, _, rfl⟩ | ⟨d, _, rfl⟩
  · exact fsMatch_nil
  · exact segMatch_nil d
  · exact sufMatch_nil d

theorem marker_pos (m : Str → Option Nat) (h : m ∈ markerMatchers)
    (x : Str) (l : Nat) (hx : m x = some l) : 2 ≤ l := by
  rcases mem_markerMatchers_elim m h with rfl | ⟨d, _, rfl⟩ | ⟨d, _, rfl⟩
  · have := fsMatch_pos x l hx
    omega
  · exact segMatch_pos d x l hx
  · exact sufMatch_pos d x l hx

/-- Backward characterizations: a matched-shape prefix forces the match. -/
theorem segMatch_of_p1 (d x : Str) (h : (('/' :: d) ++ ['H', '/']) <+: x) :
    segMatch d x = some (d.length + 3) := by
  unfold segMatch
  rw [if_pos (List.isPrefixOf_iff_prefix.mpr h)]

theorem segMatch_of_p2 (d x : Str) (h : (('/' :: d) ++ ['/']) <+: x) :
    segMatch d x = some (d.length + 2) := by
  have hn1 : ¬ ((('/' :: d) ++ ['H', '/']) <+: x) := by
    intro h1
    have e1 : x[d.length + 1]? = some 'H' := by
      rw [prefix_getElem _ x h1 (d.length + 1) (by simp),
        List.getElem?_append, if_neg (by simp)]
      simp
    have e2 : x[d.length + 1]? = some '/' := by
      rw [prefix_getElem _ x h (d.length + 1) (by simp),
        List.getElem?_append, if_neg (by simp)]
      simp
    rw [e1] at e2
    simp at e2
  unfold segMatch
  rw [if_neg (fun hc => hn1 (List.isPrefixOf_iff_prefix.mp hc)),
    if_pos (List.isPrefixOf_iff_prefix.mpr h)]

theorem sufMatch_of_p (d x : Str) (h : (('_' :: d) ++ ['.']) <+: x) :
    sufMatch d x = some (d.length + 2) := by
  unfold sufMatch
  rw [if_pos (List.isPrefixOf_iff_prefix.mpr h)]

theorem fsMatch_backward (w x : Str) (hw : wOK w)
    (h : (("/fs/").data ++ w ++ ['/']) <+: x) :
    fsMatch x = some (w.length + 5) := by
  obtain ⟨t, ht⟩ := h
  have hx : x = '/' :: 'f' :: 's' :: '/' :: (w ++ '/' :: t) := by
    rw [← ht]
    simp
  rw [hx, fsMatch_of_shape w t hw]

theorem fsMatch_prefix_of_some (x : Str) (l : Nat) (h : fsMatch x = some l) :
    ∃ w, wOK w ∧ (("/fs/").data ++ w ++ ['/']) <+: x ∧ l = w.length + 5 := by
  obtain ⟨w, t, hw, hx, hl⟩ := fsMatch_decomp x l h
  refine ⟨w, hw, ⟨t, ?_⟩, hl⟩
  rw [hx]
  simp

/-- Identity and splice forms of the two replace scanners. -/
theorem replaceFirstBy_id (m : Str → Option Nat) (r : Str) :
    ∀ s : Str, (∀ i, m (s.drop i) = none) → replaceFirstBy m r s = s
  | [], _ => rfl
  | c :: t, h => by
    have h0 : m (c :: t) = none := by simpa using h 0
    rw [replaceFirstBy_cons_none m r c t h0,
      replaceFirstBy_id m r t (fun i => by simpa using h (i + 1))]

theorem replaceAllByAux_id (m : Str → Option Nat) (r : Str) :
    ∀ (fuel : Nat) (s : Str), (∀ i, m (s.drop i) = none) →
      replaceAllByAux m r fuel s = s
  | _, [], _ => by cases ‹Nat› <;> rfl
  | 0, _ :: _, _ => rfl
  | fuel + 1, c :: t, h => by
    have h0 : m (c :: t) = none := by simpa using h 0
    show replaceAllByAux m r (fuel + 1) (c :: t) = c :: t
    simp only [replaceAllByAux, h0]
    rw [replaceAllByAux_id m r fuel t (fun i => by simpa using h (i + 1))]

theorem replaceAllBy_id (m : Str → Option Nat) (r : Str) (s : Str)
    (h : ∀ i, m (s.drop i) = none) : replaceAllBy m r s = s :=
  replaceAllByAux_id m r s.length s h

theorem replaceFirstBy_splice (m : Str → Option Nat) (r : Str)
    (hnil : m [] = none) :
    ∀ (a y : Str) (l : Nat), (∀ i, i < a.length → m (a.drop i ++ y) = none) →
      m y = some l → replaceFirstBy m r (a ++ y) = a ++ (r ++ y.drop l)
  | [], y, l, _, hm => by
    cases y with
    | nil => rw [hnil] at hm; cases hm
    | cons c t =>
      rw [List.nil_append, replaceFirstBy_cons_some m r c t l hm, List.nil_append]
  | c :: a', y, l, ha, hm => by
    have h0 : m ((c :: a') ++ y) = none := by simpa using ha 0 (by simp)
    rw [show (c :: a') ++ y = c :: (a' ++ y) from rfl,
      replaceFirstBy_cons_none m r c (a' ++ y) h0,
      replaceFirstBy_splice m r hnil a' y l
        (fun i hi => by simpa using ha (i + 1) (by simp; omega)) hm]
    rfl

theorem replaceAllByAux_cons_none (m : Str → Option Nat) (r : Str)
    (fuel : Nat) (c : Char) (t : Str) (h : m (c :: t) = none) :
    replaceAllByAux m r (fuel + 1) (c :: t) = c :: replaceAllByAux m r fuel t := by
  simp only [replaceAllByAux, h]

theorem replaceAllByAux_cons_some (m : Str → Option Nat) (r : Str)
    (fuel : Nat) (c : Char) (t : Str) (l : Nat) (h : m (c :: t) = some l) :
    replaceAllByAux m r (fuel + 1) (c :: t) =
      r ++ replaceAllByAux m r fuel (t.drop (l - 1)) := by
  simp only [replaceAllByAux, h]

theorem replaceAllByAux_splice (m : Str → Option Nat) (r : Str)
    (hnil : m [] = none) :
    ∀ (fuel : Nat) (a y : Str) (l : Nat), a.length + y.length ≤ fuel →
      (∀ i, i < a.length → m (a.drop i ++ y) = none) →
      m y = some l → 1 ≤ l → (∀ i, m ((y.drop l).drop i) = none) →
      replaceAllByAux m r fuel (a ++ y) = a ++ (r ++ y.drop l)
  | fuel, [], y, l, hf, _, hm, hl, hafter => by
    cases y with
    | nil => rw [hnil] at hm; cases hm
    | cons c t =>
      cases fuel with
      | zero => simp at hf
      | succ g =>
        rw [List.nil_append, replaceAllByAux_cons_some m r g c t l hm]
        have hdrop : t.drop (l - 1) = (c :: t).drop l := by
          cases l with
          | zero => omega
          | succ k => simp [List.drop_succ_cons]
        rw [hdrop, replaceAllByAux_id m r g ((c :: t).drop l) hafter,
          List.nil_append]
  | fuel, c :: a', y, l, hf, ha, hm, hl, hafter => by
    cases fuel with
    | zero => simp at hf
    | succ g =>
      have h0 : m (c :: (a' ++ y)) = none := by simpa using ha 0 (by simp)
      rw [show (c :: a') ++ y = c :: (a' ++ y) from rfl,
        replaceAllByAux_cons_none m r g c (a' ++ y) h0,
        replaceAllByAux_splice m r hnil g a' y l
          (by simp at hf ⊢; omega)
          (fun i hi => by simpa using ha (i + 1) (by simp; omega)) hm hl hafter]
      rfl

theorem replaceAllBy_splice (m : Str → Option Nat) (r : Str)
    (hnil : m [] = none) (a y : Str) (l : Nat)
    (ha : ∀ i, i < a.length → m (a.drop i ++ y) = none)
    (hm : m y = some l) (hl : 1 ≤ l)
    (hafter : ∀ i, m ((y.drop l).drop i) = none) :
    replaceAllBy m r (a ++ y) = a ++ (r ++ y.drop l) :=
  replaceAllByAux_splice m r hnil (a ++ y).length a y l (by simp)
    ha hm hl hafter

theorem drop_before_take (u : Str) (p i : Nat) (hi : i ≤ p)
    (hp : p ≤ u.length) : u.drop i = (u.take p).drop i ++ u.drop p := by
  conv_lhs => rw [← List.take_append_drop p u]
  rw [drop_append_le _ _ i (by simp; omega)]

theorem marker_head (m : Str → Option Nat) (hm : m ∈ markerMatchers)
    (c : Char) (t : Str) (h : (m (c :: t)).isSome = true) :
    c = '/' ∨ c = '_' := by
  rcases mem_markerMatchers_elim m hm with rfl | ⟨d, _, rfl⟩ | ⟨d, _, rfl⟩
  · exact Or.inl (fsMatch_head c t h)
  · exact Or.inl (segMatch_head d c t h)
  · exact Or.inr (sufMatch_head d c t h)

theorem forceHttps_pr (s : Str) (h : (("//").data).isPrefixOf s = true) :
    forceHttps s = ("https://").data ++ s.drop 2 := by
  unfold forceHttps
  rw [if_pos h]

theorem forceHttps_drop_eq (s : Str) (h : (("//").data).isPrefixOf s = true) :
    ∀ i, (forceHttps s).drop (i + 6) = s.drop i := by
  obtain ⟨t, ht⟩ := List.isPrefixOf_iff_prefix.mp h
  have hs : s = '/' :: '/' :: t := by rw [← ht]; rfl
  intro i
  rw [forceHttps_pr s h, hs]
  match i with
  | 0 => rfl
  | 1 => rfl
  | k + 2 =>
    show (("https://").data ++ t).drop (k + 8) = t.drop k
    rw [drop_append_ge _ _ (k + 8) (by simp)]
    norm_num

theorem forceHttps_none_low (s : Str) (h : (("//").data).isPrefixOf s = true)
    (m : Str → Option Nat) (hm : m ∈ markerMatchers) (i : Nat) (hi : i < 6) :
    m ((forceHttps s).drop i) = none := by
  obtain ⟨t, ht⟩ := List.isPrefixOf_iff_prefix.mp h
  have hs : s.drop 2 = t := by rw [← ht]; rfl
  rw [forceHttps_pr s h, hs]
  by_contra hne
  have hsome : (m ((("https://").data ++ t).drop i)).isSome = true := by
    cases hx : m ((("https://").data ++ t).drop i) with
    | none => exact absurd hx hne
    | some l => rfl
  interval_cases i <;>
    simpa using marker_head m hm _ _ hsome

theorem occ_congr (m : Str → Option Nat) (x y : Str) (h : x = y) :
    m x = m y := by rw [h]

theorem occ_bound (s : Str) (m : Str → Option Nat) (hm : m ∈ markerMatchers)
    (i : Nat) (h : (m (s.drop i)).isSome = true) : i < s.length := by
  by_contra hge
  rw [List.drop_eq_nil_of_le (by omega), marker_nil m hm] at h
  cases h

theorem goodState_init (s : Str)
    (hA : ∀ m ∈ markerMatchers, ∀ i, i < s.length → ∀ j, j < s.length →
      (m (s.drop i)).isSome = true → (m (s.drop j)).isSome = true → i = j)
    (hSep : ∀ m1 ∈ markerMatchers, ∀ m2 ∈ markerMatchers,
      ∀ i, i < s.length → ∀ j, j < s.length →
      (m1 (s.drop i)).isSome = true → (m2 (s.drop j)).isSome = true →
      i = j ∨ i + (m1 (s.drop i)).getD 0 ≤ j ∨
        j + (m2 (s.drop j)).getD 0 ≤ i) :
    goodState [] (forceHttps s) := by
  have hA' : ∀ m ∈ markerMatchers, ∀ i j,
      (m (s.drop i)).isSome = true → (m (s.drop j)).isSome = true → i = j :=
    fun m hm i j hi hj =>
      hA m hm i (occ_bound s m hm i hi) j (occ_bound s m hm j hj) hi hj
  have hSep' : ∀ m1 ∈ markerMatchers, ∀ m2 ∈ markerMatchers, ∀ i j,
      (m1 (s.drop i)).isSome = true → (m2 (s.drop j)).isSome = true →
      i = j ∨ i + (m1 (s.drop i)).getD 0 ≤ j ∨
        j + (m2 (s.drop j)).getD 0 ≤ i :=
    fun m1 h1 m2 h2 i j hi hj =>
      hSep m1 h1 m2 h2 i (occ_bound s m1 h1 i hi) j (occ_bound s m2 h2 j hj)
        hi hj
  by_cases hp : ((("//").data).isPrefixOf s) = true
  · have hocc : ∀ m ∈ markerMatchers, ∀ i,
        (m ((forceHttps s).drop i)).isSome = true →
        6 ≤ i ∧ m ((forceHttps s).drop i) = m (s.drop (i - 6)) := by
      intro m hm i hi
      have h6 : 6 ≤ i := by
        by_contra hlt
        rw [forceHttps_none_low s hp m hm i (by omega)] at hi
        cases hi
      refine ⟨h6, ?_⟩
      have : (forceHttps s).drop i = s.drop (i - 6) := by
        have := forceHttps_drop_eq s hp (i - 6)
        rwa [show i - 6 + 6 = i by omega] at this
      rw [this]
    refine ⟨fun m hm => absurd hm (by simp),
      fun m hm => absurd hm (by simp), ?_, ?_⟩
    · intro m hm i j hi hj
      obtain ⟨h6i, hei⟩ := hocc m hm i hi
      obtain ⟨h6j, hej⟩ := hocc m hm j hj
      rw [hei] at hi
      rw [hej] at hj
      have := hA' m hm (i - 6) (j - 6) hi hj
      omega
    · intro m1 h1 m2 h2 i j hi hj
      obtain ⟨h6i, hei⟩ := hocc m1 h1 i hi
      obtain ⟨h6j, hej⟩ := hocc m2 h2 j hj
      rw [hei] at hi ⊢
      rw [hej] at hj ⊢
      have := hSep' m1 h1 m2 h2 (i - 6) (j - 6) hi hj
      omega
  · have hid : forceHttps s = s := by
      unfold forceHttps
      rw [if_neg hp]
    rw [hid]
    exact ⟨fun m hm => absurd hm (by simp),
      fun m hm => absurd hm (by simp), hA', hSep'⟩

theorem occ_exists_forceHttps (s : Str)
    (h : ∃ m ∈ markerMatchers, ∃ i, i < s.length ∧
      (m (s.drop i)).isSome = true) :
    ∃ m ∈ markerMatchers, ∃ i,
      (m ((forceHttps s).drop i)).isSome = true := by
  obtain ⟨m, hm, i, _, hi⟩ := h
  by_cases hp : ((("//").data).isPrefixOf s) = true
  · exact ⟨m, hm, i + 6, by rwa [forceHttps_drop_eq s hp i]⟩
  · have hid : forceHttps s = s := by
      unfold forceHttps
      rw [if_neg hp]
    exact ⟨m, hm, i, by rwa [hid]⟩

/-- Position trichotomy for a matched prefix `mp` at position `i` of the
spliced string `a ++ r ++ b`. -/
theorem mp_split (a r b mp : Str) (i : Nat)
    (h : mp <+: (a ++ r ++ b).drop i) (hmp : 1 ≤ mp.length) :
    (i + mp.length ≤ a.length ∧ mp <+: a.drop i) ∨
    (a.length + r.length ≤ i ∧
      mp <+: b.drop (i - a.length - r.length)) ∨
    (i < a.length + r.length ∧ a.length < i + mp.length) := by
  by_cases hge : a.length + r.length ≤ i
  · refine Or.inr (Or.inl ⟨hge, ?_⟩)
    rw [List.append_assoc, drop_append_ge a (r ++ b) i (by omega),
      drop_append_ge r b _ (by omega)] at h
    exact h
  · by_cases hin : i + mp.length ≤ a.length
    · refine Or.inl ⟨hin, ?_⟩
      rw [List.append_assoc, drop_append_le a (r ++ b) i (by omega)] at h
      have := prefix_of_append_of_le mp (a.drop i) (r ++ b) h
        (by simp; omega)
      exact this
    · exact Or.inr (Or.inr ⟨by omega, by omega⟩)

theorem mp_cross_a (a y mp : Str) (i : Nat)
    (h : mp <+: a.drop i ++ y) (hi : i < a.length)
    (hc : a.length < i + mp.length) :
    a.drop i <+: mp ∧ mp.drop (a.length - i) <+: y := by
  rcases prefix_append_split mp (a.drop i) y h with h1 | ⟨h2, h3⟩
  · have := h1.length_le
    simp at this
    omega
  · have hlen : (a.drop i).length = a.length - i := by simp
    rw [hlen] at h3
    exact ⟨h2, h3⟩

/-- Decidable side conditions about the three replacement strings and
the fixed marker patterns. -/
theorem packA1_2000 : ∀ f ∈ patternStrings, ∀ k, 1 ≤ k → k < f.length →
    f.drop k <+: ("/2000/").data → f.drop k = ['/'] := by decide

theorem packA1_orig : ∀ f ∈ patternStrings, ∀ k, 1 ≤ k → k < f.length →
    f.drop k <+: ("/original/").data → f.drop k = ['/'] := by decide

theorem packA1_suf : ∀ f ∈ patternStrings, ∀ k, 1 ≤ k → k < f.length →
    ¬ (f.drop k <+: ("_2000.").data) := by decide

theorem packA2_2000 : ∀ f ∈ patternStrings, ∀ k, k < f.length →
    ¬ (("/2000/").data <+: f.drop k) := by decide

theorem packA2_orig : ∀ f ∈ patternStrings, ∀ k, k < f.length →
    ¬ (("/original/").data <+: f.drop k) := by decide

theorem packA2_suf : ∀ f ∈ patternStrings, ∀ k, k < f.length →
    ¬ (("_2000.").data <+: f.drop k) := by decide

theorem packB1_2000 : ∀ f ∈ patternStrings, ∀ j, j < 6 →
    ¬ (f <+: (("/2000/").data).drop j) := by decide

theorem packB1_orig : ∀ f ∈ patternStrings, ∀ j, j < 10 →
    ¬ (f <+: (("/original/").data).drop j) := by decide

theorem packB1_suf : ∀ f ∈ patternStrings, ∀ j, j < 6 →
    ¬ (f <+: (("_2000.").data).drop j) := by decide

theorem packB2_2000 : ∀ f ∈ patternStrings, ∀ j, 1 ≤ j → j < 6 →
    (("/2000/").data).drop j <+: f → (("/2000/").data).drop j = ['/'] := by
  decide

theorem packB2_orig : ∀ f ∈ patternStrings, ∀ j, 1 ≤ j → j < 10 →
    (("/original/").data).drop j <+: f →
      (("/original/").data).drop j = ['/'] := by decide

theorem packB2_suf : ∀ f ∈ patternStrings, ∀ j, 1 ≤ j → j < 6 →
    ¬ ((("_2000.").data).drop j <+: f) := by decide

theorem packB1fs_2000 : ∀ j, j < 6 →
    ¬ ((("/fs/").data) <+: (("/2000/").data).drop j) := by decide

theorem packB1fs_orig : ∀ j, j < 10 →
    ¬ ((("/fs/").data) <+: (("/original/").data).drop j) := by decide

theorem packB2c_2000 : ∀ j, 1 ≤ j → j < 6 →
    (("/2000/").data)[j]? = some '/' → j = 5 := by decide

theorem packB2c_orig : ∀ j, 1 ≤ j → j < 10 →
    (("/original/").data)[j]? = some '/' → j = 9 := by decide

theorem pack_nofs_2000 : ¬ ((("/fs/").data) <+: ("/2000/").data) ∧
    ¬ ((("/2000/").data) <+: ("/fs/").data) := by decide

theorem pack_nofs_orig : ¬ ((("/fs/").data) <+: ("/original/").data) ∧
    ¬ ((("/original/").data) <+: ("/fs/").data) := by decide

theorem pack_suf_noslash : ∀ j, j < 6 →
    (("_2000.").data)[j]? ≠ some '/' := by decide

theorem pack_suf_mem_noslash : '/' ∉ ("_2000.").data := by decide

theorem pack_d_wOK : ∀ d ∈ sizeBlocks, wOK d ∧ wOK (d ++ ['H']) := by
  simp only [wOK]
  decide

theorem pack_sufm0_wOK : ∀ d ∈ sizeBlocks, wOK (('_' :: d) ++ ['.']) := by
  simp only [wOK]
  decide

/-- Cross-boundary occurrences of a fixed pattern over a slash-type
splice transfer back to an occurrence in the original string that
overlaps the replaced span. -/
theorem fixedKillSlash (f r a m0 b : Str) (i : Nat)
    (hf1 : 1 ≤ f.length)
    (hpackA1 : ∀ k, 1 ≤ k → k < f.length → f.drop k <+: r →
      f.drop k = ['/'])
    (hpackA2 : ∀ k, k < f.length → ¬ (r <+: f.drop k))
    (hpackB1 : ∀ j, j < r.length → ¬ (f <+: r.drop j))
    (hpackB2 : ∀ j, 1 ≤ j → j < r.length → r.drop j <+: f →
      r.drop j = ['/'])
    (hm0h : m0.head? = some '/') (hm0l : m0.getLast? = some '/')
    (hm0len : 2 ≤ m0.length)
    (hpre : f <+: (a ++ r ++ b).drop i)
    (hi1 : i < a.length + r.length) (hi2 : a.length < i + f.length) :
    ∃ i2, f <+: (a ++ m0 ++ b).drop i2 ∧ i2 ≠ a.length ∧
      a.length < i2 + f.length ∧ i2 < a.length + m0.length := by
  obtain ⟨mt, hm0eq⟩ : ∃ mt, m0 = '/' :: mt := by
    cases m0 with
    | nil => simp at hm0h
    | cons c t =>
      simp at hm0h
      exact ⟨t, by rw [hm0h]⟩
  by_cases hcase : i < a.length
  · -- the occurrence starts inside `a`
    rw [List.append_assoc, drop_append_le a (r ++ b) i (by omega)] at hpre
    obtain ⟨hap, hdrop2⟩ := mp_cross_a a (r ++ b) f i hpre hcase hi2
    rcases prefix_append_split _ r b hdrop2 with hA1 | ⟨hA2a, _⟩
    · have hsl := hpackA1 (a.length - i) (by omega) (by omega) hA1
      have hk : a.length - i + 1 = f.length := by
        have := congrArg List.length hsl
        simp at this
        omega
      obtain ⟨ft, hfeq, haeq⟩ : ∃ ft, f = ft ++ ['/'] ∧ a.drop i = ft := by
        refine ⟨f.take (a.length - i), ?_, ?_⟩
        · conv_lhs => rw [← List.take_append_drop (a.length - i) f]
          rw [hsl]
        · have h1 := prefix_eq_take (a.drop i) f hap
          rw [show (a.drop i).length = a.length - i by simp] at h1
          exact h1.symm
      refine ⟨i, ?_, by omega, by omega, by omega⟩
      have hdropu : (a ++ m0 ++ b).drop i = a.drop i ++ (m0 ++ b) := by
        rw [List.append_assoc, drop_append_le a (m0 ++ b) i (by omega)]
      rw [hdropu, haeq, hm0eq]
      refine ⟨mt ++ b, ?_⟩
      rw [hfeq]
      simp
    · exact absurd hA2a (hpackA2 (a.length - i) (by omega))
  · -- the occurrence starts inside the replacement `r`
    push_neg at hcase
    rw [List.append_assoc, drop_append_ge a (r ++ b) i (by omega),
      drop_append_le r b (i - a.length) (by omega)] at hpre
    rcases prefix_append_split _ _ _ hpre with hB1 | ⟨hB2a, hB2b⟩
    · exact absurd hB1 (hpackB1 (i - a.length) (by omega))
    · by_cases hj : i - a.length = 0
      · rw [hj, List.drop_zero] at hB2a
        exact absurd hB2a (by
          have := hpackA2 0 (by omega)
          simpa using this)
      · have hsl := hpackB2 (i - a.length) (by omega) (by omega) hB2a
        rw [hsl] at hB2a hB2b
        obtain ⟨ft, hfeq⟩ : ∃ ft, f = '/' :: ft := by
          obtain ⟨z, hz⟩ := hB2a
          exact ⟨z, hz.symm⟩
        have hftb : ft <+: b := by
          simpa [hfeq] using hB2b
        obtain ⟨z2, hz2⟩ := hftb
        refine ⟨a.length + m0.length - 1, ?_, by omega, by omega, by omega⟩
        have hdropu : (a ++ m0 ++ b).drop (a.length + m0.length - 1) =
            '/' :: b := by
          rw [List.append_assoc, drop_append_ge a (m0 ++ b) _ (by omega),
            show a.length + m0.length - 1 - a.length = m0.length - 1 by omega,
            drop_append_le m0 b _ (by omega),
            drop_len_sub_one m0 '/' hm0l]
          rfl
        rw [hdropu, hfeq]
        exact ⟨z2, by rw [← hz2]; rfl⟩

theorem pack_len_ps : ∀ f ∈ patternStrings, 1 ≤ f.length := by decide

/-- A fixed pattern cannot cross the boundary of a `_2000.` splice at
all. -/
theorem fixedKillSuf (f a b : Str) (i : Nat)
    (hf : f ∈ patternStrings)
    (hpre : f <+: (a ++ ("_2000.").data ++ b).drop i)
    (hi1 : i < a.length + 6) (hi2 : a.length < i + f.length) :
    False := by
  have hf1 : 1 ≤ f.length := pack_len_ps f hf
  have h6 : (("_2000.").data).length = 6 := rfl
  by_cases hcase : i < a.length
  · rw [List.append_assoc,
      drop_append_le a (("_2000.").data ++ b) i (by omega)] at hpre
    obtain ⟨hap, hdrop2⟩ := mp_cross_a a _ f i hpre hcase hi2
    rcases prefix_append_split _ _ b hdrop2 with hA1 | ⟨hA2a, _⟩
    · exact packA1_suf f hf (a.length - i) (by omega) (by omega) hA1
    · exact packA2_suf f hf (a.length - i) (by omega) hA2a
  · push_neg at hcase
    rw [List.append_assoc,
      drop_append_ge a (("_2000.").data ++ b) i (by omega),
      drop_append_le (("_2000.").data) b (i - a.length) (by omega)] at hpre
    rcases prefix_append_split _ _ _ hpre with hB1 | ⟨hB2a, hB2b⟩
    · exact packB1_suf f hf (i - a.length) (by omega) hB1
    · by_cases hj : i - a.length = 0
      · rw [hj, List.drop_zero] at hB2a
        have := packA2_suf f hf 0 (by omega)
        rw [List.drop_zero] at this
        exact this hB2a
      · exact packB2_suf f hf (i - a.length) (by omega) (by omega) hB2a

theorem fs_shape_cons (w : Str) : ("/fs/").data ++ w ++ ['/'] =
    '/' :: 'f' :: 's' :: '/' :: (w ++ ['/']) := by simp

theorem fs_shape_len (w : Str) :
    (("/fs/").data ++ w ++ ['/']).length = w.length + 5 := by simp

theorem fs_take_high (w : Str) (k : Nat) (h4 : 4 ≤ k)
    (hk : k ≤ w.length + 4) :
    (("/fs/").data ++ w ++ ['/']).take k =
      ("/fs/").data ++ w.take (k - 4) := by
  rw [List.take_append_eq_append_take, List.take_append_eq_append_take,
    List.take_of_length_le (by simp; omega),
    show (['/'] : Str).take (k - ((("/fs/").data ++ w).length)) = [] from by
      simp
      omega]
  simp

theorem head_getElem_of_some (r : Str) (c : Char) (h : r.head? = some c) :
    r[0]? = some c := by
  cases r <;> simp_all

/-- Cross-boundary `/fs/…/` shapes over a slash-type splice transfer
back to an `fsMatch` occurrence in the original string overlapping the
replaced span. -/
theorem fsKillSlash (w r a m0 b : Str) (i : Nat)
    (hw : wOK w)
    (hrhead : r.head? = some '/')
    (hrlast : r.getLast? = some '/')
    (hrB1fs : ∀ j, j < r.length → ¬ ((("/fs/").data) <+: r.drop j))
    (hrB2c : ∀ j, 1 ≤ j → j < r.length → r[j]? = some '/' →
      j = r.length - 1)
    (hrnofs : ¬ ((("/fs/").data) <+: r) ∧ ¬ (r <+: ("/fs/").data))
    (hm0fs : ∃ w1 t1, m0 = '/' :: (w1 ++ '/' :: t1) ∧ wOK w1)
    (hm0l : m0.getLast? = some '/') (hm0len : 2 ≤ m0.length)
    (hpre : (("/fs/").data ++ w ++ ['/']) <+: (a ++ r ++ b).drop i)
    (hi1 : i < a.length + r.length)
    (hi2 : a.length < i + (w.length + 5)) :
    ∃ i2 l2, fsMatch ((a ++ m0 ++ b).drop i2) = some l2 ∧ i2 ≠ a.length ∧
      a.length < i2 + l2 ∧ i2 < a.length + m0.length := by
  obtain ⟨w1, t1, hm0eq, hw1⟩ := hm0fs
  have hmplen := fs_shape_len w
  by_cases hcase : i < a.length
  · rw [List.append_assoc a r b, drop_append_le a (r ++ b) i (by omega)] at hpre
    obtain ⟨hap, hdrop2⟩ := mp_cross_a a (r ++ b) _ i hpre hcase
      (by rw [fs_shape_len]; omega)
    have hk2 : a.length - i < w.length + 5 := by omega
    by_cases hk4 : a.length - i ≤ 3
    · -- boundary inside the literal `/fs/` part
      have h0 : (r ++ b)[0]? =
          ((("/fs/").data ++ w ++ ['/']).drop (a.length - i))[0]? :=
        prefix_getElem _ _ hdrop2 0
          (by rw [List.length_drop, fs_shape_len]; omega)
      rw [List.getElem?_drop, Nat.add_zero] at h0
      have hr0 : (r ++ b)[0]? = some '/' := by
        rw [List.getElem?_append, if_pos (by
          cases r with
          | nil => simp at hrhead
          | cons c t => simp)]
        exact head_getElem_of_some r '/' hrhead
      rw [hr0] at h0
      have hk123 : a.length - i = 1 ∨ a.length - i = 2 ∨ a.length - i = 3 := by
        omega
      rcases hk123 with hk | hk | hk
      · rw [hk, fs_shape_cons] at h0
        simp at h0
      · rw [hk, fs_shape_cons] at h0
        simp at h0
      · have haeq : a.drop i = ['/', 'f', 's'] := by
          have h1 := prefix_eq_take (a.drop i) _ hap
          rw [show (a.drop i).length = a.length - i by simp, hk,
            fs_shape_cons] at h1
          simpa using h1.symm
        refine ⟨i, w1.length + 5, ?_, by omega, by omega, by omega⟩
        have hdropu : (a ++ m0 ++ b).drop i = a.drop i ++ (m0 ++ b) := by
          rw [List.append_assoc a m0 b, drop_append_le a (m0 ++ b) i (by omega)]
        rw [hdropu, haeq, hm0eq]
        have hshape : (['/', 'f', 's'] : Str) ++
            (('/' :: (w1 ++ '/' :: t1)) ++ b) =
            '/' :: 'f' :: 's' :: '/' :: (w1 ++ '/' :: (t1 ++ b)) := by
          simp
        rw [hshape]
        exact fsMatch_of_shape w1 (t1 ++ b) hw1
    · push_neg at hk4
      have hk4' : 4 ≤ a.length - i := by omega
      have hkw : a.length - i ≤ w.length + 4 := by omega
      have haeq : a.drop i =
          ("/fs/").data ++ w.take (a.length - i - 4) := by
        have h1 := prefix_eq_take (a.drop i) _ hap
        rw [show (a.drop i).length = a.length - i by simp,
          fs_take_high w (a.length - i) hk4' hkw] at h1
        exact h1.symm
      have hW : (w.take (a.length - i - 4)).length = a.length - i - 4 := by
        simp
        omega
      refine ⟨i, (w.take (a.length - i - 4)).length + 5, ?_, by omega,
        by omega, by omega⟩
      have hdropu : (a ++ m0 ++ b).drop i = a.drop i ++ (m0 ++ b) := by
        rw [List.append_assoc a m0 b, drop_append_le a (m0 ++ b) i (by omega)]
      rw [hdropu, haeq, hm0eq]
      have hshape : ("/fs/").data ++ w.take (a.length - i - 4) ++
          (('/' :: (w1 ++ '/' :: t1)) ++ b) =
          '/' :: 'f' :: 's' :: '/' ::
            (w.take (a.length - i - 4) ++
              '/' :: ((w1 ++ '/' :: t1) ++ b)) := by
        simp
      rw [hshape]
      exact fsMatch_of_shape _ _ (wOK_take w hw _)
  · push_neg at hcase
    rw [List.append_assoc a r b, drop_append_ge a (r ++ b) i (by omega),
      drop_append_le r b (i - a.length) (by omega)] at hpre
    rcases prefix_append_split _ _ _ hpre with hB1 | ⟨hB2a, hB2b⟩
    · have hfsmp : ("/fs/").data <+: ("/fs/").data ++ w ++ ['/'] :=
        ⟨w ++ ['/'], by simp⟩
      exact absurd (hfsmp.trans hB1) (hrB1fs (i - a.length) (by omega))
    · by_cases hj : i - a.length = 0
      · rw [hj, List.drop_zero] at hB2a
        have hfsmp : ("/fs/").data <+: ("/fs/").data ++ w ++ ['/'] :=
          ⟨w ++ ['/'], by simp⟩
        rcases List.prefix_or_prefix_of_prefix hfsmp hB2a with h | h
        · exact absurd h hrnofs.1
        · exact absurd h hrnofs.2
      · have hj1 : 1 ≤ i - a.length := by omega
        have hjlt : i - a.length < r.length := by omega
        have h0 : (("/fs/").data ++ w ++ ['/'])[0]? =
            (r.drop (i - a.length))[0]? :=
          prefix_getElem _ _ hB2a 0 (by rw [List.length_drop]; omega)
        rw [List.getElem?_drop, Nat.add_zero] at h0
        have hmp0 : (("/fs/").data ++ w ++ ['/'])[0]? = some '/' := by
          rw [fs_shape_cons]
          simp
        rw [hmp0] at h0
        have hjeq := hrB2c (i - a.length) hj1 hjlt h0.symm
        have hrdrop : r.drop (i - a.length) = ['/'] := by
          rw [hjeq]
          exact drop_len_sub_one r '/' hrlast
        rw [hrdrop] at hB2b
        simp only [List.length_singleton] at hB2b
        have hmpdrop : (("/fs/").data ++ w ++ ['/']).drop 1 =
            'f' :: 's' :: '/' :: (w ++ ['/']) := by
          rw [fs_shape_cons]
          rfl
        rw [hmpdrop] at hB2b
        obtain ⟨z, hz⟩ := hB2b
        refine ⟨a.length + m0.length - 1, w.length + 5, ?_, by omega,
          by omega, by omega⟩
        have hdropu : (a ++ m0 ++ b).drop (a.length + m0.length - 1) =
            '/' :: b := by
          rw [List.append_assoc a m0 b, drop_append_ge a (m0 ++ b) _ (by omega),
            show a.length + m0.length - 1 - a.length = m0.length - 1 by
              omega,
            drop_append_le m0 b _ (by omega),
            drop_len_sub_one m0 '/' hm0l]
          rfl
        rw [hdropu]
        refine fsMatch_backward w ('/' :: b) hw ⟨z, ?_⟩
        rw [fs_shape_cons, ← hz]
        simp

/-- Cross-boundary `/fs/…/` shapes over a `_2000.` splice transfer back
to an `fsMatch` occurrence in the original string (the lazy scan runs
through the all-dot marker). -/
theorem fsKillSuf (w a m0 b : Str) (i : Nat)
    (hw : wOK w) (hm0w : wOK m0)
    (hpre : (("/fs/").data ++ w ++ ['/']) <+:
      (a ++ ("_2000.").data ++ b).drop i)
    (hi1 : i < a.length + 6)
    (hi2 : a.length < i + (w.length + 5)) :
    ∃ i2 l2, fsMatch ((a ++ m0 ++ b).drop i2) = some l2 ∧ i2 ≠ a.length ∧
      a.length < i2 + l2 ∧ i2 < a.length + m0.length := by
  have h6 : (("_2000.").data).length = 6 := rfl
  have hmplen := fs_shape_len w
  by_cases hcase : i < a.length
  · rw [List.append_assoc a (("_2000.").data) b,
      drop_append_le a _ i (by omega)] at hpre
    obtain ⟨hap, hdrop2⟩ := mp_cross_a a _ _ i hpre hcase
      (by rw [fs_shape_len]; omega)
    have hk2 : a.length - i < w.length + 5 := by omega
    by_cases hk4 : a.length - i ≤ 3
    · have h0 : ((("_2000.").data ++ b))[0]? =
          ((("/fs/").data ++ w ++ ['/']).drop (a.length - i))[0]? :=
        prefix_getElem _ _ hdrop2 0
          (by rw [List.length_drop, fs_shape_len]; omega)
      rw [List.getElem?_drop, Nat.add_zero] at h0
      have hr0 : ((("_2000.").data ++ b))[0]? = some '_' := by
        rw [List.getElem?_append, if_pos (by simp)]
        decide
      rw [hr0] at h0
      have hk123 : a.length - i = 1 ∨ a.length - i = 2 ∨
          a.length - i = 3 := by omega
      rcases hk123 with hk | hk | hk <;>
        · rw [hk, fs_shape_cons] at h0
          simp at h0
    · push_neg at hk4
      have hk4' : 4 ≤ a.length - i := by omega
      have hkw : a.length - i ≤ w.length + 4 := by omega
      have haeq : a.drop i =
          ("/fs/").data ++ w.take (a.length - i - 4) := by
        have h1 := prefix_eq_take (a.drop i) _ hap
        rw [show (a.drop i).length = a.length - i by simp,
          fs_take_high w (a.length - i) hk4' hkw] at h1
        exact h1.symm
      have hfs4 : (("/fs/").data).length = 4 := rfl
      have hmpdropk : (("/fs/").data ++ w ++ ['/']).drop (a.length - i) =
          w.drop (a.length - i - 4) ++ ['/'] := by
        rw [drop_append_le (("/fs/").data ++ w) (['/']) (a.length - i)
            (by rw [List.length_append, hfs4]; omega),
          drop_append_ge (("/fs/").data) w (a.length - i)
            (by rw [hfs4]; omega)]
        rfl
      rw [hmpdropk] at hdrop2
      rcases prefix_append_split _ _ b hdrop2 with hin | ⟨hrpre, hrest⟩
      · have : '/' ∈ ("_2000.").data := hin.sublist.mem (by simp)
        exact absurd this pack_suf_mem_noslash
      · have hlen6 : 6 ≤ (w.drop (a.length - i - 4)).length + 1 := by
          have := hrpre.length_le
          simpa using this
        by_cases hedge : (w.drop (a.length - i - 4)).length + 1 = 6
        · have heq : ("_2000.").data = w.drop (a.length - i - 4) ++ ['/'] :=
            List.IsPrefix.eq_of_length_le hrpre
              (by rw [List.length_append, List.length_singleton, h6]; omega)
          have : '/' ∈ ("_2000.").data := by
            rw [heq]
            simp
          exact absurd this pack_suf_mem_noslash
        · have hdeep : 6 ≤ (w.drop (a.length - i - 4)).length := by omega
          have hrest2 : w.drop (a.length - i - 4 + 6) ++ ['/'] <+: b := by
            have he : (w.drop (a.length - i - 4) ++ ['/']).drop 6 =
                w.drop (a.length - i - 4 + 6) ++ ['/'] := by
              rw [drop_append_le (w.drop (a.length - i - 4)) (['/']) 6 hdeep,
                List.drop_drop]
            rw [h6] at hrest
            rw [← he]
            exact hrest
          obtain ⟨z, hz⟩ := hrest2
          have hWt : (w.take (a.length - i - 4)).length = a.length - i - 4 := by
            simp
            omega
          refine ⟨i, (w.take (a.length - i - 4) ++ m0 ++
            w.drop (a.length - i - 4 + 6)).length + 5, ?_, by omega,
            ?_, by omega⟩
          · have hdropu : (a ++ m0 ++ b).drop i = a.drop i ++ (m0 ++ b) := by
              rw [List.append_assoc a m0 b,
                drop_append_le a (m0 ++ b) i (by omega)]
            rw [hdropu, haeq, ← hz]
            have hshape : ("/fs/").data ++ w.take (a.length - i - 4) ++
                (m0 ++ ((w.drop (a.length - i - 4 + 6) ++ ['/']) ++ z)) =
                '/' :: 'f' :: 's' :: '/' ::
                  ((w.take (a.length - i - 4) ++ m0 ++
                    w.drop (a.length - i - 4 + 6)) ++ '/' :: z) := by
              simp
            rw [hshape]
            exact fsMatch_of_shape _ z
              (wOK_append _ _ (wOK_append _ _ (wOK_take w hw _) hm0w)
                (wOK_drop w hw _))
          · have hge : a.length - i - 4 ≤ (w.take (a.length - i - 4) ++ m0 ++
                w.drop (a.length - i - 4 + 6)).length := by
              simp
              omega
            omega
  · push_neg at hcase
    rw [List.append_assoc a (("_2000.").data) b,
      drop_append_ge a _ i (by omega),
      drop_append_le (("_2000.").data) b (i - a.length) (by omega)] at hpre
    have h0 : ((("_2000.").data).drop (i - a.length) ++ b)[0]? =
        ((("/fs/").data ++ w ++ ['/']))[0]? :=
      prefix_getElem _ _ hpre 0 (by rw [fs_shape_len]; omega)
    have hmp0 : (("/fs/").data ++ w ++ ['/'])[0]? = some '/' := by
      rw [fs_shape_cons]
      simp
    rw [hmp0, List.getElem?_append, if_pos (by rw [List.length_drop]; omega),
      List.getElem?_drop, Nat.add_zero] at h0
    exact absurd h0 (pack_suf_noslash (i - a.length) (by omega))

theorem drop3_low (a x b : Str) (i : Nat) (hi : i ≤ a.length) :
    (a ++ x ++ b).drop i = a.drop i ++ (x ++ b) := by
  rw [List.append_assoc a x b, drop_append_le a (x ++ b) i hi]

theorem drop3_high (a x b : Str) (i : Nat) (hi : a.length + x.length ≤ i) :
    (a ++ x ++ b).drop i = b.drop (i - a.length - x.length) := by
  rw [List.append_assoc a x b, drop_append_ge a (x ++ b) i (by omega),
    drop_append_ge x b _ (by omega)]

/-- Occurrence transfer for a fixed pattern across a slash-type splice:
every occurrence in the spliced string is an untouched occurrence on one
side, or an occurrence of the original overlapping the replaced span. -/
theorem fixed_transfer_slash (a m0 b r f : Str) (i : Nat)
    (hf : f ∈ patternStrings)
    (hr : r = ("/2000/").data ∨ r = ("/original/").data)
    (hm0h : m0.head? = some '/') (hm0l : m0.getLast? = some '/')
    (hm0len : 2 ≤ m0.length)
    (hpre : f <+: (a ++ r ++ b).drop i) :
    (i + f.length ≤ a.length ∧ f <+: (a ++ m0 ++ b).drop i) ∨
    (a.length + r.length ≤ i ∧
      f <+: (a ++ m0 ++ b).drop (i - r.length + m0.length)) ∨
    (∃ i2, f <+: (a ++ m0 ++ b).drop i2 ∧ i2 ≠ a.length ∧
      a.length < i2 + f.length ∧ i2 < a.length + m0.length) := by
  have hlf : 1 ≤ f.length := pack_len_ps f hf
  rcases mp_split a r b f i hpre hlf with ⟨hle, hpa⟩ | ⟨hge, hpb⟩ |
    ⟨hc1, hc2⟩
  · refine Or.inl ⟨hle, ?_⟩
    rw [drop3_low a m0 b i (by omega)]
    exact hpa.trans (List.prefix_append _ _)
  · refine Or.inr (Or.inl ⟨hge, ?_⟩)
    rw [drop3_high a m0 b _ (by omega),
      show i - r.length + m0.length - a.length - m0.length =
        i - a.length - r.length by omega]
    exact hpb
  · refine Or.inr (Or.inr ?_)
    rcases hr with rfl | rfl
    · exact fixedKillSlash f (("/2000/").data) a m0 b i hlf
        (fun k hk1 hk2 => packA1_2000 f hf k hk1 hk2)
        (fun k hk => packA2_2000 f hf k hk)
        (fun j hj => packB1_2000 f hf j hj)
        (fun j hj1 hj2 => packB2_2000 f hf j hj1 hj2)
        hm0h hm0l hm0len hpre hc1 hc2
    · exact fixedKillSlash f (("/original/").data) a m0 b i hlf
        (fun k hk1 hk2 => packA1_orig f hf k hk1 hk2)
        (fun k hk => packA2_orig f hf k hk)
        (fun j hj => packB1_orig f hf j hj)
        (fun j hj1 hj2 => packB2_orig f hf j hj1 hj2)
        hm0h hm0l hm0len hpre hc1 hc2

theorem fixed_transfer_suf (a m0 b f : Str) (i : Nat)
    (hf : f ∈ patternStrings)
    (hpre : f <+: (a ++ ("_2000.").data ++ b).drop i) :
    (i + f.length ≤ a.length ∧ f <+: (a ++ m0 ++ b).drop i) ∨
    (a.length + 6 ≤ i ∧
      f <+: (a ++ m0 ++ b).drop (i - 6 + m0.length)) := by
  have hlf : 1 ≤ f.length := pack_len_ps f hf
  have h6 : (("_2000.").data).length = 6 := rfl
  rcases mp_split a (("_2000.").data) b f i hpre hlf with ⟨hle, hpa⟩ |
    ⟨hge, hpb⟩ | ⟨hc1, hc2⟩
  · refine Or.inl ⟨hle, ?_⟩
    rw [drop3_low a m0 b i (by omega)]
    exact hpa.trans (List.prefix_append _ _)
  · refine Or.inr ⟨by omega, ?_⟩
    rw [drop3_high a m0 b _ (by omega),
      show i - 6 + m0.length - a.length - m0.length =
        i - a.length - (("_2000.").data).length by omega]
    exact hpb
  · exact (fixedKillSuf f a b i hf hpre (by omega) hc2).elim

theorem p1_mem (d : Str) (hd : d ∈ sizeBlocks) :
    (('/' :: d) ++ ['H', '/']) ∈ patternStrings := by
  unfold patternStrings
  exact List.mem_append_left _ (List.mem_append_left _
    (List.mem_map_of_mem _ hd))

theorem p2_mem (d : Str) (hd : d ∈ sizeBlocks) :
    (('/' :: d) ++ ['/']) ∈ patternStrings := by
  unfold patternStrings
  exact List.mem_append_left _ (List.mem_append_right _
    (List.mem_map_of_mem _ hd))

theorem psuf_mem (d : Str) (hd : d ∈ sizeBlocks) :
    (('_' :: d) ++ ['.']) ∈ patternStrings := by
  unfold patternStrings
  exact List.mem_append_right _ (List.mem_map_of_mem _ hd)

/-- Occurrence transfer across a slash-type splice for every marker
matcher. -/
theorem occ_transfer_slash (a m0 b r : Str)
    (hr : r = ("/2000/").data ∨ r = ("/original/").data)
    (hm0fs : ∃ w1 t1, m0 = '/' :: (w1 ++ '/' :: t1) ∧ wOK w1)
    (hm0l : m0.getLast? = some '/') (hm0len : 2 ≤ m0.length)
    (m : Str → Option Nat) (hm : m ∈ markerMatchers)
    (i l : Nat) (hocc : m ((a ++ r ++ b).drop i) = some l) :
    (i + l ≤ a.length ∧ m ((a ++ m0 ++ b).drop i) = some l) ∨
    (a.length + r.length ≤ i ∧
      m ((a ++ m0 ++ b).drop (i - r.length + m0.length)) = some l) ∨
    (∃ i2 l2, m ((a ++ m0 ++ b).drop i2) = some l2 ∧ i2 ≠ a.length ∧
      a.length < i2 + l2 ∧ i2 < a.length + m0.length) := by
  have hm0h : m0.head? = some '/' := by
    obtain ⟨w1, t1, he, _⟩ := hm0fs
    rw [he]
    rfl
  have hrhead : r.head? = some '/' := by
    rcases hr with rfl | rfl <;> rfl
  have hrlast : r.getLast? = some '/' := by
    rcases hr with rfl | rfl <;> decide
  rcases mem_markerMatchers_elim m hm with rfl | ⟨d, hd, rfl⟩ |
    ⟨d, hd, rfl⟩
  · -- fsMatch
    obtain ⟨w, hw, hmp, hl⟩ := fsMatch_prefix_of_some _ l hocc
    have hmplen := fs_shape_len w
    rcases mp_split a r b _ i hmp (by omega) with ⟨hle, hpa⟩ |
      ⟨hge, hpb⟩ | ⟨hc1, hc2⟩
    · refine Or.inl ⟨by omega, ?_⟩
      rw [drop3_low a m0 b i (by omega)]
      rw [hl]
      exact fsMatch_backward w _ hw (hpa.trans (List.prefix_append _ _))
    · refine Or.inr (Or.inl ⟨hge, ?_⟩)
      rw [drop3_high a m0 b _ (by omega),
        show i - r.length + m0.length - a.length - m0.length =
          i - a.length - r.length by omega, hl]
      exact fsMatch_backward w _ hw hpb
    · refine Or.inr (Or.inr ?_)
      rcases hr with rfl | rfl
      · exact fsKillSlash w (("/2000/").data) a m0 b i hw hrhead hrlast
          (fun j hj => packB1fs_2000 j hj)
          (fun j hj1 hj2 => packB2c_2000 j hj1 hj2)
          pack_nofs_2000 hm0fs hm0l hm0len hmp hc1 (by omega)
      · exact fsKillSlash w (("/original/").data) a m0 b i hw hrhead hrlast
          (fun j hj => packB1fs_orig j hj)
          (fun j hj1 hj2 => packB2c_orig j hj1 hj2)
          pack_nofs_orig hm0fs hm0l hm0len hmp hc1 (by omega)
  · -- segMatch d
    rcases segMatch_eq_some d _ l hocc with ⟨hmp, hl⟩ | ⟨hmp, hl⟩
    · have hflen : (('/' :: d) ++ ['H', '/']).length = d.length + 3 := by
        simp
      rcases fixed_transfer_slash a m0 b r _ i (p1_mem d hd) hr
        hm0h hm0l hm0len hmp with ⟨h1, h2⟩ | ⟨h1, h2⟩ |
        ⟨i2, h2, h3, h4, h5⟩
      · exact Or.inl ⟨by omega, by rw [segMatch_of_p1 d _ h2, hl]⟩
      · exact Or.inr (Or.inl ⟨h1, by rw [segMatch_of_p1 d _ h2, hl]⟩)
      · exact Or.inr (Or.inr ⟨i2, d.length + 3,
          segMatch_of_p1 d _ h2, h3, by omega, h5⟩)
    · have hflen : (('/' :: d) ++ ['/']).length = d.length + 2 := by
        simp
      rcases fixed_transfer_slash a m0 b r _ i (p2_mem d hd) hr
        hm0h hm0l hm0len hmp with ⟨h1, h2⟩ | ⟨h1, h2⟩ |
        ⟨i2, h2, h3, h4, h5⟩
      · exact Or.inl ⟨by omega, by rw [segMatch_of_p2 d _ h2, hl]⟩
      · exact Or.inr (Or.inl ⟨h1, by rw [segMatch_of_p2 d _ h2, hl]⟩)
      · exact Or.inr (Or.inr ⟨i2, d.length + 2,
          segMatch_of_p2 d _ h2, h3, by omega, h5⟩)
  · -- sufMatch d
    obtain ⟨hmp, hl⟩ := sufMatch_eq_some d _ l hocc
    have hflen : (('_' :: d) ++ ['.']).length = d.length + 2 := by
      simp
    rcases fixed_transfer_slash a m0 b r _ i (psuf_mem d hd) hr
      hm0h hm0l hm0len hmp with ⟨h1, h2⟩ | ⟨h1, h2⟩ |
      ⟨i2, h2, h3, h4, h5⟩
    · exact Or.inl ⟨by omega, by rw [sufMatch_of_p d _ h2, hl]⟩
    · exact Or.inr (Or.inl ⟨h1, by rw [sufMatch_of_p d _ h2, hl]⟩)
    · exact Or.inr (Or.inr ⟨i2, d.length + 2,
        sufMatch_of_p d _ h2, h3, by omega, h5⟩)

/-- Occurrence transfer across a `_2000.` splice for every marker
matcher. -/
theorem occ_transfer_suf (a m0 b : Str)
    (hm0w : wOK m0)
    (m : Str → Option Nat) (hm : m ∈ markerMatchers)
    (i l : Nat) (hocc : m ((a ++ ("_2000.").data ++ b).drop i) = some l) :
    (i + l ≤ a.length ∧ m ((a ++ m0 ++ b).drop i) = some l) ∨
    (a.length + 6 ≤ i ∧
      m ((a ++ m0 ++ b).drop (i - 6 + m0.length)) = some l) ∨
    (∃ i2 l2, m ((a ++ m0 ++ b).drop i2) = some l2 ∧ i2 ≠ a.length ∧
      a.length < i2 + l2 ∧ i2 < a.length + m0.length) := by
  have h6 : (("_2000.").data).length = 6 := rfl
  rcases mem_markerMatchers_elim m hm with rfl | ⟨d, hd, rfl⟩ |
    ⟨d, hd, rfl⟩
  · -- fsMatch
    obtain ⟨w, hw, hmp, hl⟩ := fsMatch_prefix_of_some _ l hocc
    have hmplen := fs_shape_len w
    rcases mp_split a (("_2000.").data) b _ i hmp (by omega) with
      ⟨hle, hpa⟩ | ⟨hge, hpb⟩ | ⟨hc1, hc2⟩
    · refine Or.inl ⟨by omega, ?_⟩
      rw [drop3_low a m0 b i (by omega), hl]
      exact fsMatch_backward w _ hw (hpa.trans (List.prefix_append _ _))
    · refine Or.inr (Or.inl ⟨by omega, ?_⟩)
      rw [drop3_high a m0 b _ (by omega),
        show i - 6 + m0.length - a.length - m0.length =
          i - a.length - (("_2000.").data).length by omega, hl]
      exact fsMatch_backward w _ hw hpb
    · exact Or.inr (Or.inr (fsKillSuf w a m0 b i hw hm0w hmp
        (by omega) (by omega)))
  · -- segMatch d
    rcases segMatch_eq_some d _ l hocc with ⟨hmp, hl⟩ | ⟨hmp, hl⟩
    · have hflen : (('/' :: d) ++ ['H', '/']).length = d.length + 3 := by
        simp
      rcases fixed_transfer_suf a m0 b _ i (p1_mem d hd) hmp with
        ⟨h1, h2⟩ | ⟨h1, h2⟩
      · exact Or.inl ⟨by omega, by rw [segMatch_of_p1 d _ h2, hl]⟩
      · exact Or.inr (Or.inl ⟨h1, by rw [segMatch_of_p1 d _ h2, hl]⟩)
    · have hflen : (('/' :: d) ++ ['/']).length = d.length + 2 := by
        simp
      rcases fixed_transfer_suf a m0 b _ i (p2_mem d hd) hmp with
        ⟨h1, h2⟩ | ⟨h1, h2⟩
      · exact Or.inl ⟨by omega, by rw [segMatch_of_p2 d _ h2, hl]⟩
      · exact Or.inr (Or.inl ⟨h1, by rw [segMatch_of_p2 d _ h2, hl]⟩)
  · -- sufMatch d
    obtain ⟨hmp, hl⟩ := sufMatch_eq_some d _ l hocc
    have hflen : (('_' :: d) ++ ['.']).length = d.length + 2 := by
      simp
    rcases fixed_transfer_suf a m0 b _ i (psuf_mem d hd) hmp with
      ⟨h1, h2⟩ | ⟨h1, h2⟩
    · exact Or.inl ⟨by omega, by rw [sufMatch_of_p d _ h2, hl]⟩
    · exact Or.inr (Or.inl ⟨h1, by rw [sufMatch_of_p d _ h2, hl]⟩)


/-- The splice step preserves the pipeline invariant and retires the
spliced matcher. -/
theorem spliceGoodState (mk : Str → Option Nat)
    (done : List (Str → Option Nat)) (a m0 b r : Str)
    (hmemk : mk ∈ markerMatchers)
    (hT : ∀ m ∈ markerMatchers, ∀ i l,
      m ((a ++ r ++ b).drop i) = some l →
      (i + l ≤ a.length ∧ m ((a ++ m0 ++ b).drop i) = some l) ∨
      (a.length + r.length ≤ i ∧
        m ((a ++ m0 ++ b).drop (i - r.length + m0.length)) = some l) ∨
      (∃ i2 l2, m ((a ++ m0 ++ b).drop i2) = some l2 ∧ i2 ≠ a.length ∧
        a.length < i2 + l2 ∧ i2 < a.length + m0.length))
    (hocck : mk ((a ++ m0 ++ b).drop a.length) = some m0.length)
    (hG : goodState done (a ++ m0 ++ b)) :
    goodState (mk :: done) (a ++ r ++ b) := by
  obtain ⟨hSub, hDone, hA, hSep⟩ := hG
  have hl0 : 2 ≤ m0.length := marker_pos mk hmemk _ _ hocck
  have hsomek : (mk ((a ++ m0 ++ b).drop a.length)).isSome = true := by
    rw [hocck]
    rfl
  have hgetk : (mk ((a ++ m0 ++ b).drop a.length)).getD 0 = m0.length := by
    rw [hocck]
    rfl
  have hkill : ∀ m ∈ markerMatchers,
      ¬ (∃ i2 l2, m ((a ++ m0 ++ b).drop i2) = some l2 ∧
        i2 ≠ a.length ∧ a.length < i2 + l2 ∧
        i2 < a.length + m0.length) := by
    intro m hm ⟨i2, l2, he, hne, hov1, hov2⟩
    have hsome2 : (m ((a ++ m0 ++ b).drop i2)).isSome = true := by
      rw [he]
      rfl
    rcases hSep m hm mk hmemk i2 a.length hsome2 hsomek with h | h | h
    · exact hne h
    · rw [he] at h
      simp at h
      omega
    · rw [hgetk] at h
      omega
  refine ⟨?_, ?_, ?_, ?_⟩
  · intro m hmem
    rcases List.mem_cons.mp hmem with rfl | hmem
    · exact hmemk
    · exact hSub m hmem
  · -- processed matchers have no occurrence in the spliced string
    intro m hmem
    rcases List.mem_cons.mp hmem with rfl | hmem
    · intro i
      cases hx : m ((a ++ r ++ b).drop i) with
      | none => rfl
      | some l =>
        exfalso
        have hAk := hA m hmemk
        rcases hT m hmemk i l hx with ⟨h1, h2⟩ | ⟨h1, h2⟩ |
          ⟨i2, l2, h2, h3, h4, h5⟩
        · have hv : 2 ≤ l := marker_pos m hmemk _ _ h2
          have := hAk i a.length (by rw [h2]; rfl) hsomek
          omega
        · have := hAk (i - r.length + m0.length) a.length
            (by rw [h2]; rfl) hsomek
          omega
        · exact hkill m hmemk ⟨i2, l2, h2, h3, h4, h5⟩
    · intro i
      cases hx : m ((a ++ r ++ b).drop i) with
      | none => rfl
      | some l =>
        exfalso
        have hmm : m ∈ markerMatchers := hSub m hmem
        rcases hT m hmm i l hx with ⟨h1, h2⟩ | ⟨h1, h2⟩ |
          ⟨i2, l2, h2, h3, h4, h5⟩
        · exact absurd h2 (by rw [hDone m hmem i]; simp)
        · exact absurd h2 (by rw [hDone m hmem _]; simp)
        · exact absurd h2 (by rw [hDone m hmem i2]; simp)
  · -- each marker still occurs at most once
    intro m hm i j hi hj
    obtain ⟨li, hli⟩ := Option.isSome_iff_exists.mp hi
    obtain ⟨lj, hlj⟩ := Option.isSome_iff_exists.mp hj
    have hvi : 2 ≤ li := marker_pos m hm _ _ hli
    have hvj : 2 ≤ lj := marker_pos m hm _ _ hlj
    have hAm := hA m hm
    rcases hT m hm i li hli with ⟨ha1, ha2⟩ | ⟨ha1, ha2⟩ |
      ⟨i2, l2, h2, h3, h4, h5⟩
    · rcases hT m hm j lj hlj with ⟨hb1, hb2⟩ | ⟨hb1, hb2⟩ |
        ⟨j2, k2, g2, g3, g4, g5⟩
      · exact hAm i j (by rw [ha2]; rfl) (by rw [hb2]; rfl)
      · have := hAm i (j - r.length + m0.length)
          (by rw [ha2]; rfl) (by rw [hb2]; rfl)
        omega
      · exact absurd ⟨j2, k2, g2, g3, g4, g5⟩ (hkill m hm)
    · rcases hT m hm j lj hlj with ⟨hb1, hb2⟩ | ⟨hb1, hb2⟩ |
        ⟨j2, k2, g2, g3, g4, g5⟩
      · have := hAm (i - r.length + m0.length) j
          (by rw [ha2]; rfl) (by rw [hb2]; rfl)
        omega
      · have := hAm (i - r.length + m0.length) (j - r.length + m0.length)
          (by rw [ha2]; rfl) (by rw [hb2]; rfl)
        omega
      · exact absurd ⟨j2, k2, g2, g3, g4, g5⟩ (hkill m hm)
    · exact absurd ⟨i2, l2, h2, h3, h4, h5⟩ (hkill m hm)
  · -- occurrences keep disjoint spans
    intro m1 h1 m2 h2 i j hi hj
    obtain ⟨l1, hl1⟩ := Option.isSome_iff_exists.mp hi
    obtain ⟨l2, hl2⟩ := Option.isSome_iff_exists.mp hj
    rw [hl1, hl2]
    simp only [Option.getD_some]
    rcases hT m1 h1 i l1 hl1 with ⟨ha1, ha2⟩ | ⟨ha1, ha2⟩ |
      ⟨i2, k2, g2, g3, g4, g5⟩
    · rcases hT m2 h2 j l2 hl2 with ⟨hb1, hb2⟩ | ⟨hb1, hb2⟩ |
        ⟨j2, k2, g2, g3, g4, g5⟩
      · rcases hSep m1 h1 m2 h2 i j (by rw [ha2]; rfl)
          (by rw [hb2]; rfl) with h | h | h
        · exact Or.inl h
        · rw [ha2] at h
          simp only [Option.getD_some] at h
          exact Or.inr (Or.inl h)
        · rw [hb2] at h
          simp only [Option.getD_some] at h
          exact Or.inr (Or.inr h)
      · exact Or.inr (Or.inl (by omega))
      · exact absurd ⟨j2, k2, g2, g3, g4, g5⟩ (hkill m2 h2)
    · rcases hT m2 h2 j l2 hl2 with ⟨hb1, hb2⟩ | ⟨hb1, hb2⟩ |
        ⟨j2, k2, g2, g3, g4, g5⟩
      · exact Or.inr (Or.inr (by omega))
      · rcases hSep m1 h1 m2 h2 (i - r.length + m0.length)
          (j - r.length + m0.length) (by rw [ha2]; rfl)
          (by rw [hb2]; rfl) with h | h | h
        · exact Or.inl (by omega)
        · rw [ha2] at h
          simp only [Option.getD_some] at h
          exact Or.inr (Or.inl (by omega))
        · rw [hb2] at h
          simp only [Option.getD_some] at h
          exact Or.inr (Or.inr (by omega))
      · exact absurd ⟨j2, k2, g2, g3, g4, g5⟩ (hkill m2 h2)
    · exact absurd ⟨i2, k2, g2, g3, g4, g5⟩ (hkill m1 h1)

theorem marker_le_len (m : Str → Option Nat) (hm : m ∈ markerMatchers)
    (x : Str) (l : Nat) (h : m x = some l) : l ≤ x.length := by
  rcases mem_markerMatchers_elim m hm with rfl | ⟨d, _, rfl⟩ | ⟨d, _, rfl⟩
  · obtain ⟨w, _, hp, hl⟩ := fsMatch_prefix_of_some x l h
    have := hp.length_le
    rw [fs_shape_len] at this
    omega
  · rcases segMatch_eq_some d x l h with ⟨hp, hl⟩ | ⟨hp, hl⟩
    · have := hp.length_le
      simp at this
      omega
    · have := hp.length_le
      simp at this
      omega
  · obtain ⟨hp, hl⟩ := sufMatch_eq_some d x l h
    have := hp.length_le
    simp at this
    omega

/-- One non-global stage (matcher `mk`, slash-type replacement `r`):
the invariant advances and the output is the input or a splice. -/
theorem stepFirstGeneric (mk : Str → Option Nat) (r : Str)
    (done : List (Str → Option Nat)) (u : Str)
    (hmem : mk ∈ markerMatchers)
    (hr : r = ("/2000/").data ∨ r = ("/original/").data)
    (hm0fact : ∀ y l0, mk y = some l0 →
      ∃ w1 t1, y.take l0 = '/' :: (w1 ++ '/' :: t1) ∧ wOK w1)
    (hm0last : ∀ y l0, mk y = some l0 → (y.take l0).getLast? = some '/')
    (hG : goodState done u) :
    goodState (mk :: done) (replaceFirstBy mk r u) ∧
    (replaceFirstBy mk r u = u ∨
      ∃ x y, replaceFirstBy mk r u = x ++ r ++ y) := by
  by_cases hex : ∃ p, (mk (u.drop p)).isSome = true
  · obtain ⟨p, hp⟩ := hex
    obtain ⟨l0, hl0⟩ := Option.isSome_iff_exists.mp hp
    have hplen : p < u.length := occ_bound u mk hmem p hp
    have hl02 : 2 ≤ l0 := marker_pos mk hmem _ _ hl0
    have hl0le : l0 ≤ (u.drop p).length := marker_le_len mk hmem _ _ hl0
    have hm0len : ((u.drop p).take l0).length = l0 := by
      rw [List.length_take]
      omega
    have halen : (u.take p).length = p := by
      rw [List.length_take]
      omega
    have hyd : (u.drop p).take l0 ++ (u.drop p).drop l0 = u.drop p :=
      List.take_append_drop l0 (u.drop p)
    have hueq : u =
        u.take p ++ (u.drop p).take l0 ++ (u.drop p).drop l0 := by
      rw [List.append_assoc, hyd, List.take_append_drop]
    have hnone_lt : ∀ i, i < (u.take p).length →
        mk ((u.take p).drop i ++ u.drop p) = none := by
      intro i hi
      rw [halen] at hi
      rw [← drop_before_take u p i (by omega) (by omega)]
      cases hx : mk (u.drop i) with
      | none => rfl
      | some lx =>
        exfalso
        have := hG.2.2.1 mk hmem i p (by rw [hx]; rfl) hp
        omega
    have hsplice : replaceFirstBy mk r u =
        u.take p ++ (r ++ (u.drop p).drop l0) := by
      conv_lhs => rw [← List.take_append_drop p u]
      rw [replaceFirstBy_splice mk r (marker_nil mk hmem) (u.take p)
        (u.drop p) l0 hnone_lt hl0]
    obtain ⟨w1, t1, hshape, hw1⟩ := hm0fact (u.drop p) l0 hl0
    have hlast := hm0last (u.drop p) l0 hl0
    have hGm : goodState done
        (u.take p ++ (u.drop p).take l0 ++ (u.drop p).drop l0) := by
      rw [← hueq]
      exact hG
    have hocck : mk ((u.take p ++ (u.drop p).take l0 ++
        (u.drop p).drop l0).drop (u.take p).length) =
        some ((u.drop p).take l0).length := by
      rw [List.append_assoc, List.drop_left, hyd, hm0len]
      exact hl0
    have hnew := spliceGoodState mk done (u.take p) ((u.drop p).take l0)
      ((u.drop p).drop l0) r hmem
      (fun m hm i l hx => occ_transfer_slash (u.take p)
        ((u.drop p).take l0) ((u.drop p).drop l0) r hr
        ⟨w1, t1, hshape, hw1⟩ hlast (by rw [hm0len]; omega) m hm i l hx)
      hocck hGm
    constructor
    · rw [hsplice, ← List.append_assoc]
      exact hnew
    · refine Or.inr ⟨u.take p, (u.drop p).drop l0, ?_⟩
      rw [hsplice, List.append_assoc]
  · push_neg at hex
    have hnone : ∀ i, mk (u.drop i) = none := by
      intro i
      cases hx : mk (u.drop i) with
      | none => rfl
      | some lx => exact absurd (by rw [hx]; rfl) (hex i)
    rw [replaceFirstBy_id mk r u hnone]
    refine ⟨⟨fun m hm => ?_, fun m hm => ?_, hG.2.2.1, hG.2.2.2⟩,
      Or.inl rfl⟩
    · rcases List.mem_cons.mp hm with rfl | hm
      · exact hmem
      · exact hG.1 m hm
    · rcases List.mem_cons.mp hm with rfl | hm
      · exact hnone
      · exact hG.2.1 m hm

/-- One global stage (`sufMatch d`, replacement `_2000.`): the invariant
advances and the output is the input or a splice. -/
theorem stepAllGeneric (mk : Str → Option Nat)
    (done : List (Str → Option Nat)) (u : Str)
    (hmem : mk ∈ markerMatchers)
    (hm0wfact : ∀ y l0, mk y = some l0 → wOK (y.take l0))
    (hG : goodState done u) :
    goodState (mk :: done) (replaceAllBy mk (("_2000.").data) u) ∧
    (replaceAllBy mk (("_2000.").data) u = u ∨
      ∃ x y, replaceAllBy mk (("_2000.").data) u =
        x ++ ("_2000.").data ++ y) := by
  by_cases hex : ∃ p, (mk (u.drop p)).isSome = true
  · obtain ⟨p, hp⟩ := hex
    obtain ⟨l0, hl0⟩ := Option.isSome_iff_exists.mp hp
    have hplen : p < u.length := occ_bound u mk hmem p hp
    have hl02 : 2 ≤ l0 := marker_pos mk hmem _ _ hl0
    have hl0le : l0 ≤ (u.drop p).length := marker_le_len mk hmem _ _ hl0
    have hm0len : ((u.drop p).take l0).length = l0 := by
      rw [List.length_take]
      omega
    have halen : (u.take p).length = p := by
      rw [List.length_take]
      omega
    have hyd : (u.drop p).take l0 ++ (u.drop p).drop l0 = u.drop p :=
      List.take_append_drop l0 (u.drop p)
    have hueq : u =
        u.take p ++ (u.drop p).take l0 ++ (u.drop p).drop l0 := by
      rw [List.append_assoc, hyd, List.take_append_drop]
    have hnone_lt : ∀ i, i < (u.take p).length →
        mk ((u.take p).drop i ++ u.drop p) = none := by
      intro i hi
      rw [halen] at hi
      rw [← drop_before_take u p i (by omega) (by omega)]
      cases hx : mk (u.drop i) with
      | none => rfl
      | some lx =>
        exfalso
        have := hG.2.2.1 mk hmem i p (by rw [hx]; rfl) hp
        omega
    have hafter : ∀ i, mk (((u.drop p).drop l0).drop i) = none := by
      intro i
      have hidx : ((u.drop p).drop l0).drop i = u.drop (i + l0 + p) := by
        rw [List.drop_drop, List.drop_drop]
        congr 1
        omega
      rw [hidx]
      cases hx : mk (u.drop (i + l0 + p)) with
      | none => rfl
      | some lx =>
        exfalso
        have := hG.2.2.1 mk hmem (i + l0 + p) p (by rw [hx]; rfl) hp
        omega
    have hsplice : replaceAllBy mk (("_2000.").data) u =
        u.take p ++ ((("_2000.").data) ++ (u.drop p).drop l0) := by
      conv_lhs => rw [← List.take_append_drop p u]
      rw [replaceAllBy_splice mk (("_2000.").data) (marker_nil mk hmem)
        (u.take p) (u.drop p) l0 hnone_lt hl0 (by omega) hafter]
    have hw0 := hm0wfact (u.drop p) l0 hl0
    have hGm : goodState done
        (u.take p ++ (u.drop p).take l0 ++ (u.drop p).drop l0) := by
      rw [← hueq]
      exact hG
    have hocck : mk ((u.take p ++ (u.drop p).take l0 ++
        (u.drop p).drop l0).drop (u.take p).length) =
        some ((u.drop p).take l0).length := by
      rw [List.append_assoc, List.drop_left, hyd, hm0len]
      exact hl0
    have hnew := spliceGoodState mk done (u.take p) ((u.drop p).take l0)
      ((u.drop p).drop l0) (("_2000.").data) hmem
      (fun m hm i l hx => occ_transfer_suf (u.take p)
        ((u.drop p).take l0) ((u.drop p).drop l0) hw0 m hm i l hx)
      hocck hGm
    constructor
    · rw [hsplice, ← List.append_assoc]
      exact hnew
    · refine Or.inr ⟨u.take p, (u.drop p).drop l0, ?_⟩
      rw [hsplice, List.append_assoc]
  · push_neg at hex
    have hnone : ∀ i, mk (u.drop i) = none := by
      intro i
      cases hx : mk (u.drop i) with
      | none => rfl
      | some lx => exact absurd (by rw [hx]; rfl) (hex i)
    rw [replaceAllBy_id mk (("_2000.").data) u hnone]
    refine ⟨⟨fun m hm => ?_, fun m hm => ?_, hG.2.2.1, hG.2.2.2⟩,
      Or.inl rfl⟩
    · rcases List.mem_cons.mp hm with rfl | hm
      · exact hmem
      · exact hG.1 m hm
    · rcases List.mem_cons.mp hm with rfl | hm
      · exact hnone
      · exact hG.2.1 m hm

theorem getLast_cons_append (c : Char) (x y : Str) (hy : y ≠ []) :
    (c :: (x ++ y)).getLast? = y.getLast? := by
  rw [show c :: (x ++ y) = (c :: x) ++ y from rfl]
  exact List.getLast?_append_of_ne_nil (c :: x) hy

theorem fs_mem_markers : fsMatch ∈ markerMatchers :=
  List.mem_cons_self fsMatch _

theorem seg_mem_markers (d : Str) (hd : d ∈ sizeBlocks) :
    segMatch d ∈ markerMatchers :=
  List.mem_cons_of_mem _ (List.mem_append_left _
    (List.mem_map_of_mem _ hd))

theorem suf_mem_markers (d : Str) (hd : d ∈ sizeBlocks) :
    sufMatch d ∈ markerMatchers :=
  List.mem_cons_of_mem _ (List.mem_append_right _
    (List.mem_map_of_mem _ hd))

theorem fs_take_eq (y : Str) (l0 : Nat) (h : fsMatch y = some l0) :
    ∃ w, wOK w ∧ y.take l0 = ("/fs/").data ++ w ++ ['/'] := by
  obtain ⟨w, hw, hp, hl⟩ := fsMatch_prefix_of_some y l0 h
  refine ⟨w, hw, ?_⟩
  have := prefix_eq_take _ y hp
  rw [fs_shape_len, ← hl] at this
  exact this

theorem stepFs (done : List (Str → Option Nat)) (u : Str)
    (hG : goodState done u) :
    goodState (fsMatch :: done)
      (replaceFirstBy fsMatch (("/original/").data) u) ∧
    (replaceFirstBy fsMatch (("/original/").data) u = u ∨
      ∃ x y, replaceFirstBy fsMatch (("/original/").data) u =
        x ++ ("/original/").data ++ y) := by
  refine stepFirstGeneric fsMatch (("/original/").data) done u
    fs_mem_markers (Or.inr rfl) ?_ ?_ hG
  · intro y l0 h
    obtain ⟨w, hw, ht⟩ := fs_take_eq y l0 h
    refine ⟨['f', 's'], w ++ ['/'], ?_, by
      simp only [wOK]
      decide⟩
    rw [ht, fs_shape_cons]
    rfl
  · intro y l0 h
    obtain ⟨w, hw, ht⟩ := fs_take_eq y l0 h
    rw [ht, fs_shape_cons,
      show '/' :: 'f' :: 's' :: '/' :: (w ++ ['/']) =
        '/' :: (('f' :: 's' :: '/' :: w) ++ ['/']) from by simp,
      getLast_cons_append _ _ _ (by simp)]
    rfl

theorem seg_take_eq (d : Str) (y : Str) (l0 : Nat)
    (h : segMatch d y = some l0) :
    y.take l0 = ('/' :: d) ++ ['H', '/'] ∨
      y.take l0 = ('/' :: d) ++ ['/'] := by
  rcases segMatch_eq_some d y l0 h with ⟨hp, hl⟩ | ⟨hp, hl⟩
  · refine Or.inl ?_
    have := prefix_eq_take _ y hp
    simp only [List.length_append, List.length_cons] at this
    rw [hl]
    rw [show d.length + 3 = d.length + 1 + 2 by omega]
    exact this
  · refine Or.inr ?_
    have := prefix_eq_take _ y hp
    simp only [List.length_append, List.length_cons] at this
    rw [hl]
    rw [show d.length + 2 = d.length + 1 + 1 by omega]
    exact this

theorem stepSeg (d : Str) (hd : d ∈ sizeBlocks)
    (done : List (Str → Option Nat)) (u : Str)
    (hG : goodState done u) :
    goodState (segMatch d :: done)
      (replaceFirstBy (segMatch d) (("/2000/").data) u) ∧
    (replaceFirstBy (segMatch d) (("/2000/").data) u = u ∨
      ∃ x y, replaceFirstBy (segMatch d) (("/2000/").data) u =
        x ++ ("/2000/").data ++ y) := by
  refine stepFirstGeneric (segMatch d) (("/2000/").data) done u
    (seg_mem_markers d hd) (Or.inl rfl) ?_ ?_ hG
  · intro y l0 h
    rcases seg_take_eq d y l0 h with ht | ht
    · refine ⟨d ++ ['H'], [], ?_, (pack_d_wOK d hd).2⟩
      rw [ht]
      simp
    · refine ⟨d, [], ?_, (pack_d_wOK d hd).1⟩
      rw [ht]
      simp
  · intro y l0 h
    rcases seg_take_eq d y l0 h with ht | ht
    · rw [ht, show ('/' :: d) ++ ['H', '/'] = '/' :: (d ++ ['H', '/'])
        from rfl, getLast_cons_append _ _ _ (by simp)]
      rfl
    · rw [ht, show ('/' :: d) ++ ['/'] = '/' :: (d ++ ['/']) from rfl,
        getLast_cons_append _ _ _ (by simp)]
      rfl

theorem suf_take_eq (d : Str) (y : Str) (l0 : Nat)
    (h : sufMatch d y = some l0) : y.take l0 = ('_' :: d) ++ ['.'] := by
  obtain ⟨hp, hl⟩ := sufMatch_eq_some d y l0 h
  have := prefix_eq_take _ y hp
  simp only [List.length_append, List.length_cons] at this
  rw [hl]
  rw [show d.length + 2 = d.length + 1 + 1 by omega]
  exact this

theorem stepSuf (d : Str) (hd : d ∈ sizeBlocks)
    (done : List (Str → Option Nat)) (u : Str)
    (hG : goodState done u) :
    goodState (sufMatch d :: done)
      (replaceAllBy (sufMatch d) (("_2000.").data) u) ∧
    (replaceAllBy (sufMatch d) (("_2000.").data) u = u ∨
      ∃ x y, replaceAllBy (sufMatch d) (("_2000.").data) u =
        x ++ ("_2000.").data ++ y) := by
  refine stepAllGeneric (sufMatch d) done u (suf_mem_markers d hd) ?_ hG
  intro y l0 h
  rw [suf_take_eq d y l0 h]
  exact pack_sufm0_wOK d hd

theorem getHighestQualityUrl_eq (s : Str) (hs : s ≠ []) :
    getHighestQualityUrl s =
      replaceAllBy (sufMatch (("1400").data)) (("_2000.").data)
        (replaceAllBy (sufMatch (("800").data)) (("_2000.").data)
          (replaceAllBy (sufMatch (("600").data)) (("_2000.").data)
            (replaceAllBy (sufMatch (("400").data)) (("_2000.").data)
              (replaceAllBy (sufMatch (("200").data)) (("_2000.").data)
                (replaceFirstBy (segMatch (("1400").data))
                  (("/2000/").data)
                  (replaceFirstBy (segMatch (("800").data))
                    (("/2000/").data)
                    (replaceFirstBy (segMatch (("600").data))
                      (("/2000/").data)
                      (replaceFirstBy (segMatch (("400").data))
                        (("/2000/").data)
                        (replaceFirstBy (segMatch (("200").data))
                          (("/2000/").data)
                          (replaceFirstBy fsMatch (("/original/").data)
                            (forceHttps s))))))))))) := by
  simp only [getHighestQualityUrl]
  rw [if_neg hs]

theorem mm_sub_done (m : Str → Option Nat) (hm : m ∈ markerMatchers) :
    m ∈ [sufMatch (("1400").data), sufMatch (("800").data),
      sufMatch (("600").data), sufMatch (("400").data),
      sufMatch (("200").data), segMatch (("1400").data),
      segMatch (("800").data), segMatch (("600").data),
      segMatch (("400").data), segMatch (("200").data), fsMatch] := by
  rcases mem_markerMatchers_elim m hm with rfl | ⟨d, hd, rfl⟩ |
    ⟨d, hd, rfl⟩
  · simp
  · simp only [sizeBlocks, List.mem_cons, List.not_mem_nil, or_false] at hd
    rcases hd with rfl | rfl | rfl | rfl | rfl <;> simp
  · simp only [sizeBlocks, List.mem_cons, List.not_mem_nil, or_false] at hd
    rcases hd with rfl | rfl | rfl | rfl | rfl <;> simp

/-- C3 (amended): under the hypotheses that every recognized
low-resolution marker matches at most one position of the raw URL and
that marker occurrences at distinct positions have disjoint spans, the
upscaled URL contains no remaining low-resolution marker; and if the raw
URL contained a marker at all, the result carries a maximum-resolution
replacement (`/original/`, `/2000/` or `_2000.`) as an infix. -/
theorem upscale_unique_disjoint_markers_removed (s : Str)
    (hA : ∀ m ∈ markerMatchers, ∀ i, i < s.length → ∀ j, j < s.length →
      (m (s.drop i)).isSome = true → (m (s.drop j)).isSome = true → i = j)
    (hSep : ∀ m1 ∈ markerMatchers, ∀ m2 ∈ markerMatchers,
      ∀ i, i < s.length → ∀ j, j < s.length →
      (m1 (s.drop i)).isSome = true → (m2 (s.drop j)).isSome = true →
      i = j ∨ i + (m1 (s.drop i)).getD 0 ≤ j ∨
        j + (m2 (s.drop j)).getD 0 ≤ i) :
    markerFree (getHighestQualityUrl s) ∧
    ((∃ m ∈ markerMatchers, ∃ i, i < s.length ∧
        (m (s.drop i)).isSome = true) →
      ∃ r', (r' = ("/original/").data ∨ r' = ("/2000/").data ∨
          r' = ("_2000.").data) ∧
        ∃ x y, getHighestQualityUrl s = x ++ r' ++ y) := by
  by_cases hs : s = []
  · subst hs
    constructor
    · intro m hm i
      have hq : getHighestQualityUrl [] = [] := rfl
      rw [hq, List.drop_nil]
      exact marker_nil m hm
    · rintro ⟨m, hm, i, hi, _⟩
      simp at hi
  · have hG0 : goodState [] (forceHttps s) := goodState_init s hA hSep
    obtain ⟨hG1, hD1⟩ := stepFs [] (forceHttps s) hG0
    obtain ⟨hG2, hD2⟩ := stepSeg (("200").data) (by decide) _ _ hG1
    obtain ⟨hG3, hD3⟩ := stepSeg (("400").data) (by decide) _ _ hG2
    obtain ⟨hG4, hD4⟩ := stepSeg (("600").data) (by decide) _ _ hG3
    obtain ⟨hG5, hD5⟩ := stepSeg (("800").data) (by decide) _ _ hG4
    obtain ⟨hG6, hD6⟩ := stepSeg (("1400").data) (by decide) _ _ hG5
    obtain ⟨hG7, hD7⟩ := stepSuf (("200").data) (by decide) _ _ hG6
    obtain ⟨hG8, hD8⟩ := stepSuf (("400").data) (by decide) _ _ hG7
    obtain ⟨hG9, hD9⟩ := stepSuf (("600").data) (by decide) _ _ hG8
    obtain ⟨hG10, hD10⟩ := stepSuf (("800").data) (by decide) _ _ hG9
    obtain ⟨hG11, hD11⟩ := stepSuf (("1400").data) (by decide) _ _ hG10
    have hgq := getHighestQualityUrl_eq s hs
    have hMF : markerFree (getHighestQualityUrl s) := by
      intro m hm i
      rw [hgq]
      exact hG11.2.1 m (mm_sub_done m hm) i
    constructor
    · exact hMF
    · intro hex
      obtain ⟨m, hm, i0, hocc0⟩ := occ_exists_forceHttps s hex
      rcases hD11 with h11 | ⟨x, y, hxy⟩
      · rw [h11] at hgq
        rcases hD10 with h10 | ⟨x, y, hxy⟩
        · rw [h10] at hgq
          rcases hD9 with h9 | ⟨x, y, hxy⟩
          · rw [h9] at hgq
            rcases hD8 with h8 | ⟨x, y, hxy⟩
            · rw [h8] at hgq
              rcases hD7 with h7 | ⟨x, y, hxy⟩
              · rw [h7] at hgq
                rcases hD6 with h6 | ⟨x, y, hxy⟩
                · rw [h6] at hgq
                  rcases hD5 with h5 | ⟨x, y, hxy⟩
                  · rw [h5] at hgq
                    rcases hD4 with h4 | ⟨x, y, hxy⟩
                    · rw [h4] at hgq
                      rcases hD3 with h3 | ⟨x, y, hxy⟩
                      · rw [h3] at hgq
                        rcases hD2 with h2 | ⟨x, y, hxy⟩
                        · rw [h2] at hgq
                          rcases hD1 with h1 | ⟨x, y, hxy⟩
                          · exfalso
                            rw [h1] at hgq
                            have hnone := hMF m hm i0
                            rw [hgq] at hnone
                            rw [hnone] at hocc0
                            cases hocc0
                          · exact ⟨_, Or.inl rfl, x, y, by rw [hgq, hxy]⟩
                        · exact ⟨_, Or.inr (Or.inl rfl), x, y,
                            by rw [hgq, hxy]⟩
                      · exact ⟨_, Or.inr (Or.inl rfl), x, y,
                          by rw [hgq, hxy]⟩
                    · exact ⟨_, Or.inr (Or.inl rfl), x, y,
                        by rw [hgq, hxy]⟩
                  · exact ⟨_, Or.inr (Or.inl rfl), x, y,
                      by rw [hgq, hxy]⟩
                · exact ⟨_, Or.inr (Or.inl rfl), x, y, by rw [hgq, hxy]⟩
              · exact ⟨_, Or.inr (Or.inr rfl), x, y, by rw [hgq, hxy]⟩
            · exact ⟨_, Or.inr (Or.inr rfl), x, y, by rw [hgq, hxy]⟩
          · exact ⟨_, Or.inr (Or.inr rfl), x, y, by rw [hgq, hxy]⟩
        · exact ⟨_, Or.inr (Or.inr rfl), x, y, by rw [hgq, hxy]⟩
      · exact ⟨_, Or.inr (Or.inr rfl), x, y, by rw [hgq, hxy]⟩


theorem amoCheck_sound (s : Str) (h : amoCheck s = true) :
    ∀ m ∈ markerMatchers, ∀ i, i < s.length → ∀ j, j < s.length →
      (m (s.drop i)).isSome = true → (m (s.drop j)).isSome = true →
      i = j := by
  intro m hm i hi j hj hsi hsj
  have h1 := List.all_eq_true.mp h m hm
  have h2 := List.all_eq_true.mp h1 i (List.mem_range.mpr hi)
  have h3 := List.all_eq_true.mp h2 j (List.mem_range.mpr hj)
  rw [hsi, hsj] at h3
  simpa using h3

theorem sepOccCheck_sound (s : Str) (h : sepOccCheck s = true) :
    ∀ m1 ∈ markerMatchers, ∀ m2 ∈ markerMatchers,
      ∀ i, i < s.length → ∀ j, j < s.length →
      (m1 (s.drop i)).isSome = true → (m2 (s.drop j)).isSome = true →
      i = j ∨ i + (m1 (s.drop i)).getD 0 ≤ j ∨
        j + (m2 (s.drop j)).getD 0 ≤ i := by
  intro m1 h1 m2 h2 i hi j hj hsi hsj
  have g1 := List.all_eq_true.mp h m1 h1
  have g2 := List.all_eq_true.mp g1 m2 h2
  have g3 := List.all_eq_true.mp g2 i (List.mem_range.mpr hi)
  have g4 := List.all_eq_true.mp g3 j (List.mem_range.mpr hj)
  rw [hsi, hsj] at g4
  simp only [Bool.not_true, Bool.false_or] at g4
  rcases Bool.or_eq_true_iff.mp g4 with g | g
  · rcases Bool.or_eq_true_iff.mp g with g' | g'
    · exact Or.inl (by simpa using g')
    · exact Or.inr (Or.inl (Nat.le_of_ble_eq_true g'))
  · exact Or.inr (Or.inr (Nat.le_of_ble_eq_true g))

set_option maxHeartbeats 2000000 in
/-- Witness for C3: the multi-marker URL `//a/fs/x/y_200.z` satisfies
both hypotheses; its upscaled form is marker-free and carries a
maximum-resolution token. -/
theorem upscale_unique_disjoint_markers_removed_witness :
    (amoCheck (("//a/fs/x/y_200.z").data) = true ∧
      sepOccCheck (("//a/fs/x/y_200.z").data) = true) ∧
    (markerFree (getHighestQualityUrl (("//a/fs/x/y_200.z").data)) ∧
      ((∃ m ∈ markerMatchers, ∃ i, i < (("//a/fs/x/y_200.z").data).length ∧
          (m ((("//a/fs/x/y_200.z").data).drop i)).isSome = true) →
        ∃ r', (r' = ("/original/").data ∨ r' = ("/2000/").data ∨
            r' = ("_2000.").data) ∧
          ∃ x y, getHighestQualityUrl (("//a/fs/x/y_200.z").data) =
            x ++ r' ++ y)) :=
  ⟨⟨by decide, by decide⟩,
    upscale_unique_disjoint_markers_removed (("//a/fs/x/y_200.z").data)
      (amoCheck_sound _ (by decide)) (sepOccCheck_sound _ (by decide))⟩

set_option maxHeartbeats 1000000 in
/-- Counterexample to C3 as stated: `https://a/200/b/200/c.jpg` contains
the `/200/` marker twice; the path-segment substitution is non-global, so
the upscaled URL still contains `/200/` (at offset 16). -/
theorem upscale_duplicate_seg_marker_survives :
    (segMatch (("200").data)
      (((("https://a/200/b/200/c.jpg").data)).drop 9)).isSome = true ∧
    ¬ markerFree
      (getHighestQualityUrl (("https://a/200/b/200/c.jpg").data)) := by
  constructor
  · decide
  · intro h
    have hx : segMatch (("200").data)
        ((getHighestQualityUrl
          (("https://a/200/b/200/c.jpg").data)).drop 16) = some 5 := by
      decide
    rw [h (segMatch (("200").data)) (seg_mem_markers _ (by decide)) 16]
      at hx
    cases hx
